import Mathlib

/-!
Verification of the per-symbol streaming statistics engine
(`src/segment.rs`, `src/manager.rs`, `src/main.rs`).

IEEE-754 doubles are modelled by the type `F` below: NaN and the two
infinities are explicit constructors and finite values carry an exact
rational.  The special-value behaviour of every operation (NaN and
infinity propagation, Rust's NaN-ignoring `f64::min`/`f64::max`)
follows IEEE-754 and the Rust standard library; rounding of finite
results and signed zeros are abstracted away (finite arithmetic is
exact).  Machine integers: `usize` arithmetic that can overflow is
reduced modulo `2 ^ 64` where the source can overflow
(`10usize.pow(k)`); `Nat` subtraction coincides with
`usize::saturating_sub`.  Vector indexing is modelled with `List.getD`
with the identity element as default; every index used by the code is
in bounds in all reachable states, so the default is never consulted
there.
-/

/-- Model of `f64`: exact finite rationals plus the IEEE-754 special
values. -/
inductive F where
  | fin : ℚ → F
  | pinf : F
  | ninf : F
  | nan : F
deriving DecidableEq, Repr

namespace F

/-- IEEE-754 addition on `F` (finite arithmetic exact). -/
def add : F → F → F
  | nan, _ => nan
  | _, nan => nan
  | pinf, ninf => nan
  | ninf, pinf => nan
  | pinf, _ => pinf
  | _, pinf => pinf
  | ninf, _ => ninf
  | _, ninf => ninf
  | fin a, fin b => fin (a + b)

/-- IEEE-754 negation on `F`. -/
def neg : F → F
  | nan => nan
  | pinf => ninf
  | ninf => pinf
  | fin a => fin (-a)

/-- IEEE-754 subtraction on `F`. -/
def sub (a b : F) : F := add a (neg b)

/-- IEEE-754 multiplication on `F` (signed zeros abstracted). -/
def mul : F → F → F
  | nan, _ => nan
  | _, nan => nan
  | pinf, pinf => pinf
  | pinf, ninf => ninf
  | ninf, pinf => ninf
  | ninf, ninf => pinf
  | pinf, fin b => if b = 0 then nan else if 0 < b then pinf else ninf
  | fin a, pinf => if a = 0 then nan else if 0 < a then pinf else ninf
  | ninf, fin b => if b = 0 then nan else if 0 < b then ninf else pinf
  | fin a, ninf => if a = 0 then nan else if 0 < a then ninf else pinf
  | fin a, fin b => fin (a * b)

/-- IEEE-754 division on `F` (signed zeros abstracted). -/
def div : F → F → F
  | nan, _ => nan
  | _, nan => nan
  | pinf, pinf => nan
  | pinf, ninf => nan
  | ninf, pinf => nan
  | ninf, ninf => nan
  | pinf, fin b => if 0 ≤ b then pinf else ninf
  | ninf, fin b => if 0 ≤ b then ninf else pinf
  | fin _, pinf => fin 0
  | fin _, ninf => fin 0
  | fin a, fin b =>
      if b = 0 then (if a = 0 then nan else if 0 < a then pinf else ninf)
      else fin (a / b)

/-- Rust `f64::min`: if one argument is NaN the other is returned. -/
def fmin : F → F → F
  | nan, b => b
  | a, nan => a
  | ninf, _ => ninf
  | _, ninf => ninf
  | pinf, b => b
  | a, pinf => a
  | fin a, fin b => fin (min a b)

/-- Rust `f64::max`: if one argument is NaN the other is returned. -/
def fmax : F → F → F
  | nan, b => b
  | a, nan => a
  | pinf, _ => pinf
  | _, pinf => pinf
  | ninf, b => b
  | a, ninf => a
  | fin a, fin b => fin (max a b)

/-- The cast `count as f64` (exact below `2 ^ 53`, which covers every
count reachable in the program). -/
def ofInt (n : ℤ) : F := fin (n : ℚ)

end F

/-- The `NodeData` from `src/segment.rs`: the aggregation record carried at
every node of the segment tree. -/
structure NodeData where
  min : F
  max : F
  sum : F
  sum_squares : F
  count : ℤ
  last : F
deriving DecidableEq, Repr

namespace NodeData

/-- The `NodeData::new` from `src/segment.rs`: the singleton summary of one
observation. -/
def new (value : F) : NodeData :=
  { min := value
    max := value
    sum := value
    sum_squares := F.mul value value
    count := 1
    last := value }

/-- The `NodeData::merge` from `src/segment.rs`. -/
def merge (left : NodeData) (right : NodeData) : NodeData :=
  if left.count = 0 then right
  else if right.count = 0 then left
  else
    { min := F.fmin left.min right.min
      max := F.fmax left.max right.max
      sum := F.add left.sum right.sum
      sum_squares := F.add left.sum_squares right.sum_squares
      count := left.count + right.count
      last := right.last }

/-- The `NodeData::zero` from `src/segment.rs`: the identity summary. -/
def zero : NodeData :=
  { min := F.pinf
    max := F.ninf
    sum := F.fin 0
    sum_squares := F.fin 0
    count := 0
    last := F.fin 0 }

end NodeData

/-- The `SegmentTree` from `src/segment.rs`. -/
structure SegmentTree where
  tree : List NodeData
  size : Nat
  current_position : Nat
deriving Repr

namespace SegmentTree

/-- The `SegmentTree::new` from `src/segment.rs`: initial capacity 1024,
backing array of length 2048 filled with the identity. -/
def new : SegmentTree :=
  { tree := List.replicate (1024 * 2) NodeData.zero
    size := 1024
    current_position := 0 }

/-- The doubling loop `while new_size < needed_size { new_size *= 2 }`
of `ensure_capacity`, run with enough fuel.  For `1 ≤ s` (always true:
the size starts at 1024 and only grows) fuel `needed` suffices, so the
function agrees with the Rust loop on every reachable input. -/
def growAux : Nat → Nat → Nat → Nat
  | 0, s, _ => s
  | fuel + 1, s, needed => if s < needed then growAux fuel (2 * s) needed else s

/-- The new capacity chosen by `ensure_capacity`. -/
def growSize (s needed : Nat) : Nat := growAux needed s needed

/-- The leaf-restoring loop of `ensure_capacity`: writes the saved
leaves consecutively starting at index `i`. -/
def placeLeaves : List NodeData → Nat → List NodeData → List NodeData
  | tr, _, [] => tr
  | tr, i, leaf :: rest => placeLeaves (tr.set i leaf) (i + 1) rest

/-- The rebuild loop `for i in (1..size).rev()` of `ensure_capacity`,
processing indices `n, n-1, ..., 1`. -/
def rebuildFrom : List NodeData → Nat → List NodeData
  | tr, 0 => tr
  | tr, n + 1 =>
      rebuildFrom
        (tr.set (n + 1)
          (NodeData.merge (tr.getD (2 * (n + 1)) NodeData.zero)
            (tr.getD (2 * (n + 1) + 1) NodeData.zero))) n

/-- The `SegmentTree::ensure_capacity` from `src/segment.rs`. -/
def ensure_capacity (t : SegmentTree) (needed_size : Nat) : SegmentTree :=
  if needed_size ≤ t.size then t
  else
    let new_size := growSize t.size needed_size
    let leaves :=
      (List.range t.current_position).map (fun i => t.tree.getD (t.size + i) NodeData.zero)
    let base := List.replicate (new_size * 2) NodeData.zero
    let restored := placeLeaves base new_size leaves
    { tree := rebuildFrom restored (new_size - 1)
      size := new_size
      current_position := t.current_position }

/-- The parent-recomputing loop of `SegmentTree::update`:
`while node > 1 { node /= 2; tree[node] = merge(children) }`.
Structural recursion on a fuel argument; fuel `node` is enough because
the index at least halves every iteration. -/
def mergeUpAux : Nat → List NodeData → Nat → List NodeData
  | 0, tr, _ => tr
  | fuel + 1, tr, node =>
      if 1 < node then
        mergeUpAux fuel
          (tr.set (node / 2)
            (NodeData.merge (tr.getD (2 * (node / 2)) NodeData.zero)
              (tr.getD (2 * (node / 2) + 1) NodeData.zero)))
          (node / 2)
      else tr

/-- The full parent-recomputing loop of `SegmentTree::update`. -/
def mergeUp (tr : List NodeData) (node : Nat) : List NodeData :=
  mergeUpAux node tr node

/-- The `SegmentTree::update` from `src/segment.rs`. -/
def update (t : SegmentTree) (pos : Nat) (value : F) : SegmentTree :=
  { tree := mergeUp (t.tree.set (pos + t.size) (NodeData.new value)) (pos + t.size)
    size := t.size
    current_position := t.current_position }

/-- The `SegmentTree::query_internal` from `src/segment.rs`, by structural
recursion on a fuel argument; the recursion halves `r - l`, and it only
recurses when `r - l ≥ 2`, so fuel `r - l + 1` covers the whole
descent. -/
def queryAux : Nat → List NodeData → Nat → Nat → Nat → Nat → Nat → NodeData
  | 0, _, _, _, _, _, _ => NodeData.zero
  | fuel + 1, tr, node, l, r, qs, qe =>
      if qe ≤ l ∨ r ≤ qs then NodeData.zero
      else if qs ≤ l ∧ r ≤ qe then tr.getD node NodeData.zero
      else
        NodeData.merge (queryAux fuel tr (2 * node) l ((l + r) / 2) qs qe)
          (queryAux fuel tr (2 * node + 1) ((l + r) / 2) r qs qe)

/-- The `SegmentTree::query_internal` from `src/segment.rs`. -/
def query_internal (tr : List NodeData) (node l r qs qe : Nat) : NodeData :=
  queryAux (r - l + 1) tr node l r qs qe

/-- The `SegmentTree::query_range` from `src/segment.rs`. -/
def query_range (t : SegmentTree) (start stop : Nat) : NodeData :=
  query_internal t.tree 1 0 t.size start stop

/-- One iteration of the `add_batch` loop body: update at the current
position, then advance the position. -/
def push (t : SegmentTree) (value : F) : SegmentTree :=
  let u := update t t.current_position value
  { tree := u.tree, size := u.size, current_position := u.current_position + 1 }

/-- The `SegmentTree::add_batch` from `src/segment.rs`. -/
def add_batch (t : SegmentTree) (values : List F) : SegmentTree :=
  (values.foldl push (ensure_capacity t (t.current_position + values.length)))

end SegmentTree

/-- The `Stats` from `src/manager.rs`. -/
structure Stats where
  min : F
  max : F
  last : F
  avg : F
  var : F
deriving DecidableEq, Repr

/-- The zero-filled reply sent by the worker when the window is empty. -/
def Stats.zeroed : Stats :=
  { min := F.fin 0, max := F.fin 0, last := F.fin 0, avg := F.fin 0, var := F.fin 0 }

/-- The `10usize.pow(k)` under release-mode (wrapping) semantics. -/
def wpow10 (k : Nat) : Nat := (10 ^ k) % (2 ^ 64)

/-- The reply computation of the `GetStats` arm of `SymbolTask::run`
(`src/manager.rs`), factored over an explicit window `[qs, qe)`. -/
def statsFromWindow (t : SegmentTree) (qs qe : Nat) : Stats :=
  let q := t.query_range qs qe
  if q.count = 0 then Stats.zeroed
  else
    let avg := F.div q.sum (F.ofInt q.count)
    { min := q.min
      max := q.max
      last := q.last
      avg := avg
      var := F.sub (F.div q.sum_squares (F.ofInt q.count)) (F.mul avg avg) }

/-- The `GetStats` arm of `SymbolTask::run` (`src/manager.rs`):
`k := 10usize.pow(k)`, `end := current_position`,
`start := end.saturating_sub(k)`, then the reply from the window
summary. -/
def getStats (t : SegmentTree) (k : Nat) : Stats :=
  statsFromWindow t (t.current_position - wpow10 k) t.current_position

/-- The `AddBatch` arm of `SymbolTask::run` (`src/manager.rs`):
validate the batch size, reply, and mutate only on success. -/
def applyAddBatch (t : SegmentTree) (values : List F) : SegmentTree × String :=
  if values.length = 0 ∨ 10000 < values.length then (t, "Invalid batch size")
  else (t.add_batch values, "Batch added successfully")

/-- The node payload `(min, max, sum, sum_sq)` of the segment tree in
`src/main.rs`. -/
abbrev M4 : Type := F × F × F × F

/-- The identity payload `(INFINITY, NEG_INFINITY, 0.0, 0.0)` used by
`src/main.rs`. -/
def id4 : M4 := (F.pinf, F.ninf, F.fin 0, F.fin 0)

/-- The `SegmentTree::merge` from `src/main.rs` (unconditional componentwise
combine; no `count`, no `last`). -/
def merge4 (a b : M4) : M4 :=
  (F.fmin a.1 b.1, F.fmax a.2.1 b.2.1, F.add a.2.2.1 b.2.2.1, F.add a.2.2.2 b.2.2.2)

/-- Rust `usize::next_power_of_two` (fuel-based; fuel `n` suffices since
the accumulator doubles from 1). -/
def nextPow2Aux : Nat → Nat → Nat → Nat
  | 0, acc, _ => acc
  | fuel + 1, acc, n => if acc < n then nextPow2Aux fuel (2 * acc) n else acc

/-- Rust `usize::next_power_of_two`. -/
def nextPow2 (n : Nat) : Nat := nextPow2Aux n 1 n

/-- Rust `Vec::resize(tree_size, default)`: truncate or pad with the
default to the requested length. -/
def resizeList (l : List α) (n : Nat) (d : α) : List α :=
  l.take n ++ List.replicate (n - l.length) d

/-- The `SegmentTree` of `src/main.rs`. -/
structure MTree where
  size : Nat
  current_size : Nat
  data : List M4

namespace MTree

/-- The `SegmentTree::new` from `src/main.rs`. -/
def new : MTree := { size := 0, current_size := 0, data := [] }

/-- The `SegmentTree::resize` from `src/main.rs`: note that `size` is set to
`new_size` itself, not to the power of two used for the backing array. -/
def resize (t : MTree) (new_size : Nat) : MTree :=
  { size := new_size
    current_size := t.current_size
    data := resizeList t.data (2 * nextPow2 new_size) id4 }

/-- The leaf-writing loop of `batch_update` in `src/main.rs`: writes
`(v, v, v, v*v)` at consecutive indices starting at `i` — the raw
logical position, with no leaf-region offset. -/
def writeLeaves4 : List M4 → Nat → List F → List M4
  | d, _, [] => d
  | d, i, v :: rest => writeLeaves4 (d.set i (v, v, v, F.mul v v)) (i + 1) rest

/-- The parent-recalculation loop `for idx in (1..current_size).rev()`
of `batch_update` in `src/main.rs`, processing `n, n-1, ..., 1`. -/
def mrebuildFrom : List M4 → Nat → List M4
  | d, 0 => d
  | d, n + 1 =>
      mrebuildFrom
        (d.set (n + 1) (merge4 (d.getD (2 * (n + 1)) id4) (d.getD (2 * (n + 1) + 1) id4))) n

/-- The `SegmentTree::batch_update` from `src/main.rs`. -/
def batch_update (t : MTree) (values : List F) : MTree :=
  let required := t.current_size + values.length
  let t1 := if t.size < required then t.resize required else t
  let d1 := writeLeaves4 t1.data t1.current_size values
  let d2 := mrebuildFrom d1 (t1.current_size - 1)
  { size := t1.size, current_size := max t1.current_size required, data := d2 }

/-- The iterative climb of `SegmentTree::query` in `src/main.rs`
(fuel-based: `r` at least halves each iteration, so fuel `r + 1`
covers the loop). -/
def mqueryAux : Nat → List M4 → Nat → Nat → M4 → M4
  | 0, _, _, _, res => res
  | fuel + 1, d, l, r, res =>
      if l < r then
        let s1 := if l % 2 = 1 then (l + 1, merge4 res (d.getD l id4)) else (l, res)
        let s2 := if r % 2 = 1 then (r - 1, merge4 s1.2 (d.getD (r - 1) id4)) else (r, s1.2)
        mqueryAux fuel d (s1.1 / 2) (s2.1 / 2) s2.2
      else res

/-- The `SegmentTree::query` from `src/main.rs`. -/
def query (t : MTree) (left right : Nat) : M4 :=
  mqueryAux (right + t.size + 1) t.data (left + t.size) (right + t.size) id4

end MTree

/-! ### The per-symbol actor fabric (`SymbolManager` / `SymbolTask`,
`src/manager.rs`)

The dispatcher task owns the registry and forwards each `(symbol,
command)` envelope, in FIFO order, to the single worker task of that
symbol, spawning the worker on first use; each worker drains its own
inbox serially.  The transition system below has one step for the
dispatcher (route the oldest pending envelope) and one step per symbol
worker (process the oldest command in its inbox); the schedule that
interleaves these steps is arbitrary, which over-approximates every
interleaving the tokio scheduler can produce.  Channel capacities only
restrict which schedules occur, so safety theorems over all schedules
cover the real system. -/

/-- A command sent to a symbol worker (`ManagerCommand`,
`src/manager.rs`), with the reply channel made implicit. -/
inductive Cmd where
  | addBatch (values : List F)
  | getStatsCmd (k : Nat)
deriving DecidableEq

/-- A reply sent back on a command's reply channel. -/
inductive Reply where
  | text (s : String)
  | stats (st : Stats)
deriving DecidableEq

/-- One command processed by `SymbolTask::run` against the worker's
tree: the new tree and the reply. -/
def applyCmd (t : SegmentTree) : Cmd → SegmentTree × Reply
  | .addBatch vs => ((applyAddBatch t vs).1, .text (applyAddBatch t vs).2)
  | .getStatsCmd k => (t, .stats (getStats t k))

/-- A symbol worker: its owned aggregator, its inbox, and the replies it
has sent so far, oldest first. -/
structure Worker where
  tree : SegmentTree
  inbox : List Cmd
  replies : List Reply

/-- The whole system: the dispatcher's not-yet-routed envelopes and the
registry of spawned workers (an association list mirroring the
`HashMap`). -/
structure SysState where
  pending : List (String × Cmd)
  workers : List (String × Worker)

/-- Registry lookup. -/
def findW : List (String × Worker) → String → Option Worker
  | [], _ => none
  | (a, w) :: rest, s => if a = s then some w else findW rest s

/-- One dispatcher iteration body (`SymbolManager::run`): spawn the
worker if the symbol is new, then enqueue the command in its inbox. -/
def dispatchOne (ws : List (String × Worker)) (s : String) (c : Cmd) :
    List (String × Worker) :=
  match ws with
  | [] => [(s, ⟨SegmentTree.new, [c], []⟩)]
  | (a, w) :: rest =>
      if a = s then (a, { w with inbox := w.inbox ++ [c] }) :: rest
      else (a, w) :: dispatchOne rest s c

/-- One worker iteration body (`SymbolTask::run`): take the oldest
inbox command, apply it to the owned tree, send the reply. -/
def workOne (ws : List (String × Worker)) (s : String) : List (String × Worker) :=
  match ws with
  | [] => []
  | (a, w) :: rest =>
      if a = s then
        match w.inbox with
        | [] => (a, w) :: rest
        | c :: cs =>
            (a, ⟨(applyCmd w.tree c).1, cs, w.replies ++ [(applyCmd w.tree c).2]⟩) :: rest
      else (a, w) :: workOne rest s

/-- A scheduling choice: run the dispatcher once, or run one worker
once. -/
inductive Choice where
  | disp
  | work (s : String)

/-- One scheduled step of the system (a no-op when the chosen task has
nothing to do, i.e. it is parked on `recv`). -/
def sysStep (st : SysState) : Choice → SysState
  | .disp =>
      match st.pending with
      | [] => st
      | (s, c) :: rest => ⟨rest, dispatchOne st.workers s c⟩
  | .work s => ⟨st.pending, workOne st.workers s⟩

/-- Run the system from the initial state (all envelopes pending, no
workers) under an arbitrary schedule. -/
def sysRun (envs : List (String × Cmd)) (sched : List Choice) : SysState :=
  sched.foldl sysStep ⟨envs, []⟩

/-- The system has fully drained: nothing pending, every inbox empty. -/
def drained (st : SysState) : Prop :=
  st.pending = [] ∧ ∀ p ∈ st.workers, p.2.inbox = []

instance : DecidablePred drained := fun st => by
  unfold drained; infer_instance

/-- The commands submitted for one symbol, in submission order. -/
def cmdsFor (envs : List (String × Cmd)) (s : String) : List Cmd :=
  (envs.filter (fun e => e.1 = s)).map (fun e => e.2)

/-- Reference semantics: one fresh aggregator processing a command list
serially, collecting replies in order. -/
def serialRun (cmds : List Cmd) : SegmentTree × List Reply :=
  cmds.foldl (fun acc c => ((applyCmd acc.1 c).1, acc.2 ++ [(applyCmd acc.1 c).2]))
    (SegmentTree.new, [])

/-- The replies a symbol's worker has sent, oldest first. -/
def repliesOf (st : SysState) (s : String) : List Reply :=
  match findW st.workers s with
  | some w => w.replies
  | none => []

/-- The aggregator owned by a symbol's worker (a fresh one if the
symbol was never seen, matching lazy spawning). -/
def treeOf (st : SysState) (s : String) : SegmentTree :=
  match findW st.workers s with
  | some w => w.tree
  | none => SegmentTree.new

/-- The inbox of a symbol's worker. -/
def inboxOf (st : SysState) (s : String) : List Cmd :=
  match findW st.workers s with
  | some w => w.inbox
  | none => []

/-! ### Specification-side definitions used by the theorems -/

/-- Invariant tying a reachable system state to the submitted
envelopes: for every symbol, the commands submitted for it split into
an already-executed prefix `done` — whose serial execution produced
exactly the worker's replies and tree — followed by the worker's inbox
and the still-unrouted pending envelopes. -/
def SysInv (envs : List (String × Cmd)) (st : SysState) : Prop :=
  ∀ s : String, ∃ done : List Cmd,
    cmdsFor envs s = done ++ inboxOf st s ++ cmdsFor st.pending s ∧
    repliesOf st s = (serialRun done).2 ∧
    treeOf st s = (serialRun done).1

/-- A summary is well formed when it is the identity or has positive
count.  `new` produces well-formed summaries, `zero` is well formed,
and `merge` preserves the property, so every summary the program ever
stores or returns is well formed. -/
def NodeData.Wf (d : NodeData) : Prop := d = NodeData.zero ∨ 0 < d.count

/-- The left-to-right merge of a list of summaries, starting from the
identity. -/
def foldMerge (l : List NodeData) : NodeData := l.foldl NodeData.merge NodeData.zero

/-- Relation: `i` is a strict ancestor of `node` in the implicit binary tree. -/
def isAnc (i node : Nat) : Prop := ∃ j, 1 ≤ j ∧ i = node / 2 ^ j

/-- The left-to-right merge of the leaf summaries of tree `tr` (whose
leaf region starts at `size`) over logical positions `[a, b)`. -/
def windowFold (tr : List NodeData) (size a b : Nat) : NodeData :=
  foldMerge ((List.range' a (b - a)).map (fun i => tr.getD (size + i) NodeData.zero))

/-- The representation invariant of `SegmentTree` relative to the
stream `S` of all observations appended so far. -/
structure Represents (t : SegmentTree) (S : List F) : Prop where
  hpos : t.current_position = S.length
  hlen : t.tree.length = 2 * t.size
  hpow : ∃ m, t.size = 2 ^ m
  hmin : 1024 ≤ t.size
  hle : S.length ≤ t.size
  hleaf : ∀ i, i < S.length →
    t.tree.getD (t.size + i) NodeData.zero = NodeData.new (S.getD i (F.fin 0))
  hpad : ∀ j, S.length ≤ j → j < t.size →
    t.tree.getD (t.size + j) NodeData.zero = NodeData.zero
  hint : ∀ i, 1 ≤ i → i < t.size →
    t.tree.getD i NodeData.zero =
      NodeData.merge (t.tree.getD (2 * i) NodeData.zero) (t.tree.getD (2 * i + 1) NodeData.zero)

/-- The structural invariants of claim C4: internal nodes are merges of
their children, leaf slots past `size + current_position` hold the
identity, and `size` is a power of two at least
`max 1024 current_position` (with the backing array of length
`2 * size`). -/
structure StructInv (t : SegmentTree) : Prop where
  hlen : t.tree.length = 2 * t.size
  hpow : ∃ m, t.size = 2 ^ m
  hmin : 1024 ≤ t.size
  hle : t.current_position ≤ t.size
  hpad : ∀ j, t.current_position ≤ j → j < t.size →
    t.tree.getD (t.size + j) NodeData.zero = NodeData.zero
  hint : ∀ i, 1 ≤ i → i < t.size →
    t.tree.getD i NodeData.zero =
      NodeData.merge (t.tree.getD (2 * i) NodeData.zero) (t.tree.getD (2 * i + 1) NodeData.zero)

/-! ### List access helpers -/

theorem getD_set_self {α : Type} (l : List α) (i : Nat) (x d : α) (h : i < l.length) :
    (l.set i x).getD i d = x := by
  simp [List.getD, List.getElem?_set, h]

theorem getD_set_ne {α : Type} (l : List α) {i j : Nat} (x d : α) (h : i ≠ j) :
    (l.set i x).getD j d = l.getD j d := by
  simp [List.getD, List.getElem?_set, h]

theorem getD_replicate {α : Type} (n i : Nat) (x d : α) :
    (List.replicate n x).getD i d = if i < n then x else d := by
  simp [List.getD, List.getElem?_replicate]
  split <;> simp

theorem range'_append_nat (a n m : Nat) :
    List.range' a n ++ List.range' (a + n) m = List.range' a (n + m) := by
  have h := List.range'_append a n m 1
  simp only [Nat.one_mul] at h
  rw [h, Nat.add_comm m n]

theorem getD_append_left {α : Type} (l1 l2 : List α) (i : Nat) (d : α) (h : i < l1.length) :
    (l1 ++ l2).getD i d = l1.getD i d := by
  simp [List.getD, List.getElem?_append_left h]

theorem getD_append_right {α : Type} (l1 l2 : List α) (i : Nat) (d : α) (h : l1.length ≤ i) :
    (l1 ++ l2).getD i d = l2.getD (i - l1.length) d := by
  simp [List.getD, List.getElem?_append_right h]

theorem getD_range_map {α : Type} (f : Nat → α) (n i : Nat) (d : α) (h : i < n) :
    ((List.range n).map f).getD i d = f i := by
  simp [List.getD, List.getElem?_map, List.getElem?_range h]

theorem map_range'_getD {α : Type} (S : List α) (d : α) :
    ∀ (n a : Nat), a + n ≤ S.length →
      (List.range' a n).map (fun i => S.getD i d) = (S.drop a).take n := by
  intro n
  induction n with
  | zero => intro a ha; simp
  | succ m ih =>
      intro a ha
      have hlt : a < S.length := by omega
      have hdrop : S.drop a = S.getD a d :: S.drop (a + 1) := by
        rw [List.drop_eq_getElem_cons hlt]
        simp [List.getD, List.getElem?_eq_getElem hlt]
      rw [List.range'_succ, List.map_cons, hdrop, List.take_succ_cons]
      rw [ih (a + 1) (by omega)]

/-! ### Algebra of the `F` operations -/

namespace F

theorem add_assocF (a b c : F) : add (add a b) c = add a (add b c) := by
  cases a <;> cases b <;> cases c <;> simp [add, add_assoc]

theorem fmin_assocF (a b c : F) : fmin (fmin a b) c = fmin a (fmin b c) := by
  cases a <;> cases b <;> cases c <;> simp [fmin, min_assoc]

theorem fmax_assocF (a b c : F) : fmax (fmax a b) c = fmax a (fmax b c) := by
  cases a <;> cases b <;> cases c <;> simp [fmax, max_assoc]

/-- Adding NaN on the right gives NaN. -/
theorem add_nan (a : F) : add a nan = nan := by
  cases a <;> simp [add]

/-- Adding NaN on the left gives NaN. -/
theorem nan_add (a : F) : add nan a = nan := by
  simp [add]

/-- NaN behaviour: `fmin` yields NaN only when both arguments are NaN. -/
theorem fmin_eq_nan {a b : F} : fmin a b = nan ↔ a = nan ∧ b = nan := by
  cases a <;> cases b <;> simp [fmin]

/-- NaN behaviour: `fmax` yields NaN only when both arguments are NaN. -/
theorem fmax_eq_nan {a b : F} : fmax a b = nan ↔ a = nan ∧ b = nan := by
  cases a <;> cases b <;> simp [fmax]

theorem mul_nan_self : mul nan nan = nan := by
  simp [mul]

end F

/-! ### Algebra of `NodeData.merge` -/

namespace NodeData

theorem wf_zero : Wf zero := Or.inl rfl

theorem wf_new (v : F) : Wf (new v) := Or.inr (by simp [new])

theorem count_zero : zero.count = 0 := rfl

theorem merge_zero_left (x : NodeData) : merge zero x = x := by
  simp [merge, zero]

theorem merge_wf_zero_right {x : NodeData} (hx : Wf x) : merge x zero = x := by
  rcases hx with h | h
  · subst h; exact merge_zero_left zero
  · simp [merge, zero, Int.ne_of_gt h]

theorem wf_merge {a b : NodeData} (ha : Wf a) (hb : Wf b) : Wf (merge a b) := by
  rcases ha with ha | ha
  · subst ha; rw [merge_zero_left]; exact hb
  · rcases hb with hb | hb
    · subst hb; rw [merge_wf_zero_right (Or.inr ha)]; exact Or.inr ha
    · right
      simp [merge, Int.ne_of_gt ha, Int.ne_of_gt hb]
      omega

theorem count_merge (a b : NodeData) : (merge a b).count = a.count + b.count := by
  by_cases h1 : a.count = 0
  · simp [merge, h1]
  · by_cases h2 : b.count = 0
    · simp [merge, h1, h2]
    · simp [merge, h1, h2]

theorem wf_nonneg {d : NodeData} (h : Wf d) : 0 ≤ d.count := by
  rcases h with h | h
  · subst h; simp [zero]
  · omega

/-- Associativity of `merge` for summaries with non-negative counts
(in particular for all summaries the program constructs).  It fails
for artificial records with negative `count`. -/
theorem merge_assoc {a b c : NodeData} (ha : 0 ≤ a.count) (hb : 0 ≤ b.count)
    (hc : 0 ≤ c.count) : merge (merge a b) c = merge a (merge b c) := by
  by_cases h1 : a.count = 0
  · have : a.count = 0 := h1
    simp [merge, this]
  · by_cases h2 : b.count = 0
    · by_cases h3 : c.count = 0 <;> simp [merge, h1, h2, h3]
    · by_cases h3 : c.count = 0
      · simp [merge, h1, h2, h3]
        intro h
        omega
      · have hab : a.count + b.count ≠ 0 := by omega
        have hbc : b.count + c.count ≠ 0 := by omega
        simp [merge, h1, h2, h3, hab, hbc, F.fmin_assocF, F.fmax_assocF, F.add_assocF,
          add_assoc]

theorem last_merge_pos {l r : NodeData} (hr : 0 < r.count) : (merge l r).last = r.last := by
  by_cases h1 : l.count = 0 <;> simp [merge, h1, Int.ne_of_gt hr]

theorem last_merge_zero {l r : NodeData} (hr : r.count = 0) (hl : l.count ≠ 0) :
    (merge l r).last = l.last := by
  simp [merge, hr, hl]

end NodeData

/-! ### Left-to-right folds of summaries -/

theorem wf_foldl_merge {l : List NodeData} {a : NodeData} (ha : NodeData.Wf a)
    (hl : ∀ d ∈ l, NodeData.Wf d) : NodeData.Wf (l.foldl NodeData.merge a) := by
  induction l generalizing a with
  | nil => exact ha
  | cons x xs ih =>
      exact ih (NodeData.wf_merge ha (hl x (by simp))) (fun d hd => hl d (by simp [hd]))

theorem wf_foldMerge {l : List NodeData} (hl : ∀ d ∈ l, NodeData.Wf d) :
    NodeData.Wf (foldMerge l) := wf_foldl_merge NodeData.wf_zero hl

theorem foldl_merge_acc {l : List NodeData} {a : NodeData} (ha : NodeData.Wf a)
    (hl : ∀ d ∈ l, NodeData.Wf d) :
    l.foldl NodeData.merge a = NodeData.merge a (foldMerge l) := by
  induction l generalizing a with
  | nil => exact (NodeData.merge_wf_zero_right ha).symm
  | cons x xs ih =>
      have hx : NodeData.Wf x := hl x (by simp)
      have hxs : ∀ d ∈ xs, NodeData.Wf d := fun d hd => hl d (by simp [hd])
      have h1 : (x :: xs).foldl NodeData.merge a = xs.foldl NodeData.merge (NodeData.merge a x) :=
        rfl
      rw [h1, ih (NodeData.wf_merge ha hx) hxs,
        NodeData.merge_assoc (NodeData.wf_nonneg ha) (NodeData.wf_nonneg hx)
          (NodeData.wf_nonneg (wf_foldMerge hxs))]
      have h2 : foldMerge (x :: xs) = xs.foldl NodeData.merge x := by
        simp [foldMerge, NodeData.merge_zero_left]
      rw [h2, ih hx hxs]

theorem foldMerge_append {l1 l2 : List NodeData} (h1 : ∀ d ∈ l1, NodeData.Wf d)
    (h2 : ∀ d ∈ l2, NodeData.Wf d) :
    foldMerge (l1 ++ l2) = NodeData.merge (foldMerge l1) (foldMerge l2) := by
  have : foldMerge (l1 ++ l2) = l2.foldl NodeData.merge (foldMerge l1) := by
    simp [foldMerge, List.foldl_append]
  rw [this, foldl_merge_acc (wf_foldMerge h1) h2]

theorem count_foldl_merge (l : List NodeData) (a : NodeData) :
    (l.foldl NodeData.merge a).count = a.count + (l.map NodeData.count).sum := by
  induction l generalizing a with
  | nil => simp
  | cons x xs ih =>
      have h1 : (x :: xs).foldl NodeData.merge a = xs.foldl NodeData.merge (NodeData.merge a x) :=
        rfl
      rw [h1, ih, NodeData.count_merge]
      simp
      ring

/-! ### The growth loop -/

theorem growAux_ge (fuel : Nat) :
    ∀ s needed, 1 ≤ s → needed ≤ s + fuel → needed ≤ SegmentTree.growAux fuel s needed := by
  induction fuel with
  | zero =>
      intro s needed hs h
      simpa [SegmentTree.growAux] using h
  | succ f ih =>
      intro s needed hs h
      simp only [SegmentTree.growAux]
      split
      · exact ih (2 * s) needed (by omega) (by omega)
      · omega

theorem growAux_pow (fuel : Nat) :
    ∀ s needed, ∃ j, SegmentTree.growAux fuel s needed = s * 2 ^ j := by
  induction fuel with
  | zero => intro s needed; exact ⟨0, by simp [SegmentTree.growAux]⟩
  | succ f ih =>
      intro s needed
      simp only [SegmentTree.growAux]
      split
      · obtain ⟨j, hj⟩ := ih (2 * s) needed
        exact ⟨j + 1, by rw [hj]; ring⟩
      · exact ⟨0, by simp⟩

theorem growSize_ge (s needed : Nat) (hs : 1 ≤ s) : needed ≤ SegmentTree.growSize s needed :=
  growAux_ge needed s needed hs (by omega)

theorem growSize_pow (s needed : Nat) : ∃ j, SegmentTree.growSize s needed = s * 2 ^ j :=
  growAux_pow needed s needed

theorem growSize_ge_self (s needed : Nat) : s ≤ SegmentTree.growSize s needed := by
  obtain ⟨j, hj⟩ := growSize_pow s needed
  rw [hj]
  have : 1 ≤ 2 ^ j := Nat.one_le_two_pow
  calc s = s * 1 := by ring
  _ ≤ s * 2 ^ j := Nat.mul_le_mul_left s this

/-! ### Ancestors in the implicit tree -/

theorem div_pow_succ_two (node k : Nat) : node / 2 ^ (k + 1) = node / 2 / 2 ^ k := by
  rw [Nat.div_div_eq_div_mul, pow_succ, Nat.mul_comm (2 ^ k) 2]

theorem isAnc_le_half {i node : Nat} (h : isAnc i node) : i ≤ node / 2 := by
  obtain ⟨j, hj1, rfl⟩ := h
  obtain ⟨k, rfl⟩ : ∃ k, j = k + 1 := ⟨j - 1, by omega⟩
  rw [div_pow_succ_two]
  exact Nat.div_le_self _ _

theorem isAnc_iff {i node : Nat} :
    isAnc i node ↔ i = node / 2 ∨ isAnc i (node / 2) := by
  constructor
  · rintro ⟨j, hj1, rfl⟩
    rcases Nat.lt_or_ge j 2 with hj | hj
    · have hj1' : j = 1 := by omega
      subst hj1'
      left
      simp
    · right
      obtain ⟨k, rfl⟩ : ∃ k, j = k + 1 := ⟨j - 1, by omega⟩
      exact ⟨k, by omega, (div_pow_succ_two node k)⟩
  · rintro (rfl | ⟨j, hj1, rfl⟩)
    · exact ⟨1, le_refl 1, by simp⟩
    · exact ⟨j + 1, by omega, (div_pow_succ_two node j).symm ▸ rfl⟩

theorem not_isAnc_one {i : Nat} (hi : 1 ≤ i) : ¬ isAnc i 1 := by
  rintro ⟨j, hj1, rfl⟩
  have h2 : (2 : Nat) ≤ 2 ^ j := by
    calc (2 : Nat) = 2 ^ 1 := by norm_num
    _ ≤ 2 ^ j := Nat.pow_le_pow_right (by norm_num) hj1
  have : 1 / 2 ^ j = 0 := Nat.div_eq_of_lt (by omega)
  omega

/-! ### The `mergeUp` loop -/

theorem mergeUpAux_length (fuel : Nat) :
    ∀ tr node, (SegmentTree.mergeUpAux fuel tr node).length = tr.length := by
  induction fuel with
  | zero => intro tr node; rfl
  | succ f ih =>
      intro tr node
      simp only [SegmentTree.mergeUpAux]
      split
      · rw [ih]; simp
      · rfl

theorem mergeUpAux_outside (fuel : Nat) :
    ∀ tr node idx, ¬ isAnc idx node →
      (SegmentTree.mergeUpAux fuel tr node).getD idx NodeData.zero =
        tr.getD idx NodeData.zero := by
  induction fuel with
  | zero => intro tr node idx _; rfl
  | succ f ih =>
      intro tr node idx h
      simp only [SegmentTree.mergeUpAux]
      split
      · have hne : idx ≠ node / 2 := by
          intro heq
          exact h ⟨1, le_refl 1, by simpa using heq⟩
        have h2 : ¬ isAnc idx (node / 2) := fun ha => h (isAnc_iff.mpr (Or.inr ha))
        rw [ih _ _ _ h2, getD_set_ne _ _ _ (Ne.symm hne)]
      · rfl

theorem mergeUpAux_internal (fuel : Nat) :
    ∀ (tr : List NodeData) (node size : Nat), node ≤ fuel → 1 ≤ node → node < 2 * size →
      2 * size ≤ tr.length →
      (∀ i, 1 ≤ i → i < size → ¬ isAnc i node →
        tr.getD i NodeData.zero =
          NodeData.merge (tr.getD (2 * i) NodeData.zero) (tr.getD (2 * i + 1) NodeData.zero)) →
      ∀ i, 1 ≤ i → i < size →
        (SegmentTree.mergeUpAux fuel tr node).getD i NodeData.zero =
          NodeData.merge ((SegmentTree.mergeUpAux fuel tr node).getD (2 * i) NodeData.zero)
            ((SegmentTree.mergeUpAux fuel tr node).getD (2 * i + 1) NodeData.zero) := by
  induction fuel with
  | zero =>
      intro tr node size hfuel h1 _ _ _ i _ _
      omega
  | succ f ih =>
      intro tr node size hfuel h1 hnode2 hlen H i hi1 hi2
      by_cases hnode : 1 < node
      · simp only [SegmentTree.mergeUpAux, if_pos hnode]
        refine ih _ (node / 2) size (by omega) (by omega) (by omega) (by simp [hlen]) ?_ i hi1 hi2
        intro i2 hi21 hi22 hanc2
        by_cases heq : i2 = node / 2
        · subst heq
          rw [getD_set_self _ _ _ _ (by omega)]
          rw [getD_set_ne _ _ _ (by omega), getD_set_ne _ _ _ (by omega)]
        · have hnotanc : ¬ isAnc i2 node := by
            rw [isAnc_iff]
            rintro (h | h)
            · exact heq h
            · exact hanc2 h
          have hc1 : node / 2 ≠ 2 * i2 := by
            intro hc
            exact hanc2 ⟨1, le_refl 1, by omega⟩
          have hc2 : node / 2 ≠ 2 * i2 + 1 := by
            intro hc
            exact hanc2 ⟨1, le_refl 1, by omega⟩
          rw [getD_set_ne _ _ _ (Ne.symm heq), getD_set_ne _ _ _ hc1, getD_set_ne _ _ _ hc2]
          exact H i2 hi21 hi22 hnotanc
      · simp only [SegmentTree.mergeUpAux, if_neg hnode]
        refine H i hi1 hi2 ?_
        have : node = 1 := by omega
        subst this
        exact not_isAnc_one hi1

/-! ### The rebuild loop -/

theorem rebuildFrom_length (n : Nat) :
    ∀ tr, (SegmentTree.rebuildFrom tr n).length = tr.length := by
  induction n with
  | zero => intro tr; rfl
  | succ m ih =>
      intro tr
      simp only [SegmentTree.rebuildFrom]
      rw [ih]; simp

theorem rebuildFrom_above (n : Nat) :
    ∀ tr idx, (idx = 0 ∨ n < idx) →
      (SegmentTree.rebuildFrom tr n).getD idx NodeData.zero = tr.getD idx NodeData.zero := by
  induction n with
  | zero => intro tr idx _; rfl
  | succ m ih =>
      intro tr idx hidx
      simp only [SegmentTree.rebuildFrom]
      rw [ih _ _ (by omega), getD_set_ne _ _ _ (by omega)]

theorem rebuildFrom_internal (n : Nat) :
    ∀ (tr : List NodeData) (size : Nat), n < size → 2 * size ≤ tr.length →
      (∀ i, n < i → i < size →
        tr.getD i NodeData.zero =
          NodeData.merge (tr.getD (2 * i) NodeData.zero) (tr.getD (2 * i + 1) NodeData.zero)) →
      ∀ i, 1 ≤ i → i < size →
        (SegmentTree.rebuildFrom tr n).getD i NodeData.zero =
          NodeData.merge ((SegmentTree.rebuildFrom tr n).getD (2 * i) NodeData.zero)
            ((SegmentTree.rebuildFrom tr n).getD (2 * i + 1) NodeData.zero) := by
  induction n with
  | zero =>
      intro tr size _ _ H i hi1 hi2
      exact H i (by omega) hi2
  | succ m ih =>
      intro tr size hsize hlen H i hi1 hi2
      simp only [SegmentTree.rebuildFrom]
      refine ih _ size (by omega) (by simp [hlen]) ?_ i hi1 hi2
      intro i2 hi21 hi22
      by_cases heq : i2 = m + 1
      · subst heq
        rw [getD_set_self _ _ _ _ (by omega)]
        rw [getD_set_ne _ _ _ (by omega), getD_set_ne _ _ _ (by omega)]
      · rw [getD_set_ne _ _ _ (by omega), getD_set_ne _ _ _ (by omega),
          getD_set_ne _ _ _ (by omega)]
        exact H i2 (by omega) hi22

/-! ### The leaf-copying loop -/

theorem placeLeaves_length :
    ∀ (leaves : List NodeData) (tr : List NodeData) (i : Nat),
      (SegmentTree.placeLeaves tr i leaves).length = tr.length := by
  intro leaves
  induction leaves with
  | nil => intro tr i; rfl
  | cons leaf rest ih =>
      intro tr i
      simp only [SegmentTree.placeLeaves]
      rw [ih]; simp

theorem placeLeaves_outside :
    ∀ (leaves : List NodeData) (tr : List NodeData) (i idx : Nat),
      (idx < i ∨ i + leaves.length ≤ idx) →
      (SegmentTree.placeLeaves tr i leaves).getD idx NodeData.zero =
        tr.getD idx NodeData.zero := by
  intro leaves
  induction leaves with
  | nil => intro tr i idx _; rfl
  | cons leaf rest ih =>
      intro tr i idx hidx
      simp only [SegmentTree.placeLeaves]
      rw [ih _ _ _ (by simp at hidx ⊢; omega), getD_set_ne _ _ _ (by simp at hidx; omega)]

theorem placeLeaves_at :
    ∀ (leaves : List NodeData) (tr : List NodeData) (i k : Nat),
      k < leaves.length → i + leaves.length ≤ tr.length →
      (SegmentTree.placeLeaves tr i leaves).getD (i + k) NodeData.zero =
        leaves.getD k NodeData.zero := by
  intro leaves
  induction leaves with
  | nil => intro tr i k hk _; simp at hk
  | cons leaf rest ih =>
      intro tr i k hk hlen
      simp only [SegmentTree.placeLeaves]
      match k with
      | 0 =>
          rw [placeLeaves_outside _ _ _ _ (by omega)]
          rw [Nat.add_zero, getD_set_self _ _ _ _ (by simp at hlen; omega)]
          rfl
      | k + 1 =>
          have h1 : i + (k + 1) = (i + 1) + k := by omega
          rw [h1, ih _ _ _ (by simp at hk; omega) (by simp at hlen ⊢; omega)]
          rfl

/-! ### Preservation of the representation invariant -/

theorem represents_new : Represents SegmentTree.new [] := by
  refine ⟨rfl, ?_, ⟨10, by show (1024 : Nat) = 2 ^ 10; norm_num⟩,
    by show (1024 : Nat) ≤ 1024; omega, by norm_num, ?_, ?_, ?_⟩
  · show (List.replicate (1024 * 2) NodeData.zero).length = 2 * 1024
    rw [List.length_replicate]
  · intro i hi
    simp at hi
  · intro j _ hj
    have hj' : j < 1024 := hj
    show (List.replicate (1024 * 2) NodeData.zero).getD (1024 + j) NodeData.zero = NodeData.zero
    rw [getD_replicate, if_pos (by omega)]
  · intro i hi1 hi2
    have hi2' : i < 1024 := hi2
    show (List.replicate (1024 * 2) NodeData.zero).getD i NodeData.zero =
      NodeData.merge ((List.replicate (1024 * 2) NodeData.zero).getD (2 * i) NodeData.zero)
        ((List.replicate (1024 * 2) NodeData.zero).getD (2 * i + 1) NodeData.zero)
    rw [getD_replicate, getD_replicate, getD_replicate, if_pos (by omega), if_pos (by omega),
      if_pos (by omega), NodeData.merge_zero_left]

theorem represents_push {t : SegmentTree} {S : List F} (h : Represents t S)
    (hlt : S.length < t.size) (v : F) : Represents (t.push v) (S ++ [v]) := by
  have hcp : t.current_position = S.length := h.hpos
  have hanc_small : ∀ idx, isAnc idx (t.current_position + t.size) → idx < t.size := by
    intro idx ha
    have := isAnc_le_half ha
    omega
  have hlen0 : (t.tree.set (t.current_position + t.size) (NodeData.new v)).length = 2 * t.size := by
    simp [h.hlen]
  have htree : (t.push v).tree =
      SegmentTree.mergeUpAux (t.current_position + t.size)
        (t.tree.set (t.current_position + t.size) (NodeData.new v))
        (t.current_position + t.size) := rfl
  have hsize : (t.push v).size = t.size := rfl
  have hposn : (t.push v).current_position = t.current_position + 1 := rfl
  refine ⟨?_, ?_, ?_, ?_, ?_, ?_, ?_, ?_⟩
  · rw [hposn, hcp]
    simp
  · rw [htree, hsize, mergeUpAux_length, hlen0]
  · rw [hsize]; exact h.hpow
  · rw [hsize]; exact h.hmin
  · rw [hsize]; simp; omega
  · intro i hi
    rw [htree, hsize]
    rw [mergeUpAux_outside _ _ _ _ (fun ha => by have := hanc_small _ ha; omega)]
    simp only [List.length_append, List.length_cons, List.length_nil] at hi
    by_cases hicp : i = S.length
    · subst hicp
      have heq : t.size + S.length = t.current_position + t.size := by omega
      rw [heq, getD_set_self _ _ _ _ (by rw [h.hlen]; omega)]
      rw [getD_append_right _ _ _ _ (le_refl _)]
      simp
    · have hi' : i < S.length := by omega
      rw [getD_set_ne _ _ _ (by omega), getD_append_left _ _ _ _ hi']
      exact h.hleaf i hi'
  · intro j hj1 hj2
    rw [htree, hsize] at *
    rw [mergeUpAux_outside _ _ _ _ (fun ha => by have := hanc_small _ ha; omega)]
    simp only [List.length_append, List.length_cons, List.length_nil] at hj1
    rw [getD_set_ne _ _ _ (by omega)]
    exact h.hpad j (by omega) hj2
  · intro i hi1 hi2
    rw [htree, hsize] at *
    refine mergeUpAux_internal _ _ _ t.size (le_refl _) (by omega) (by omega)
      (by rw [hlen0]) ?_ i hi1 hi2
    intro i2 hi21 hi22 hanc2
    have hne1 : t.current_position + t.size ≠ i2 := by omega
    have hne2 : t.current_position + t.size ≠ 2 * i2 := by
      intro hc
      exact hanc2 ⟨1, le_refl 1, by omega⟩
    have hne3 : t.current_position + t.size ≠ 2 * i2 + 1 := by
      intro hc
      exact hanc2 ⟨1, le_refl 1, by omega⟩
    rw [getD_set_ne _ _ _ hne1, getD_set_ne _ _ _ hne2, getD_set_ne _ _ _ hne3]
    exact h.hint i2 hi21 hi22

theorem represents_ensure {t : SegmentTree} {S : List F} (h : Represents t S)
    (needed : Nat) :
    Represents (t.ensure_capacity needed) S ∧ needed ≤ (t.ensure_capacity needed).size := by
  by_cases hsm : needed ≤ t.size
  · rw [SegmentTree.ensure_capacity, if_pos hsm]
    exact ⟨h, hsm⟩
  · rw [SegmentTree.ensure_capacity, if_neg hsm]
    have hone : 1 ≤ t.size := by have := h.hmin; omega
    have hge : needed ≤ SegmentTree.growSize t.size needed := growSize_ge _ _ hone
    have hgeself : t.size ≤ SegmentTree.growSize t.size needed := growSize_ge_self _ _
    set ns := SegmentTree.growSize t.size needed with hns
    set leaves := (List.range t.current_position).map
      (fun i => t.tree.getD (t.size + i) NodeData.zero) with hleaves
    set base := List.replicate (ns * 2) NodeData.zero with hbase
    set restored := SegmentTree.placeLeaves base ns leaves with hrestored
    have hleaveslen : leaves.length = S.length := by
      rw [hleaves]
      simp [h.hpos]
    have hbaselen : base.length = ns * 2 := by simp [hbase]
    have hreslen : restored.length = ns * 2 := by
      rw [hrestored, placeLeaves_length, hbaselen]
    have hSns : S.length ≤ ns := le_trans h.hle hgeself
    -- description of `restored`
    have hres_leaf : ∀ i, i < S.length →
        restored.getD (ns + i) NodeData.zero = NodeData.new (S.getD i (F.fin 0)) := by
      intro i hi
      rw [hrestored, placeLeaves_at leaves base ns i (by omega) (by rw [hbaselen]; omega)]
      rw [hleaves, getD_range_map _ _ _ _ (by rw [h.hpos]; omega)]
      exact h.hleaf i hi
    have hres_pad : ∀ j, S.length ≤ j → j < ns →
        restored.getD (ns + j) NodeData.zero = NodeData.zero := by
      intro j hj1 hj2
      rw [hrestored, placeLeaves_outside leaves base ns _ (by omega)]
      rw [hbase, getD_replicate, if_pos (by omega)]
    have hres_zero : restored.getD 0 NodeData.zero = NodeData.zero := by
      rw [hrestored, placeLeaves_outside leaves base ns _ (by omega)]
      rw [hbase, getD_replicate, if_pos (by omega)]
    -- the rebuilt tree
    have hfin_len : (SegmentTree.rebuildFrom restored (ns - 1)).length = ns * 2 := by
      rw [rebuildFrom_length, hreslen]
    have hfin_leafzone : ∀ i, (SegmentTree.rebuildFrom restored (ns - 1)).getD (ns + i)
        NodeData.zero = restored.getD (ns + i) NodeData.zero := by
      intro i
      rw [rebuildFrom_above _ _ _ (by omega)]
    have hfin_int : ∀ i, 1 ≤ i → i < ns →
        (SegmentTree.rebuildFrom restored (ns - 1)).getD i NodeData.zero =
          NodeData.merge ((SegmentTree.rebuildFrom restored (ns - 1)).getD (2 * i) NodeData.zero)
            ((SegmentTree.rebuildFrom restored (ns - 1)).getD (2 * i + 1) NodeData.zero) := by
      refine rebuildFrom_internal (ns - 1) restored ns (by omega) (by omega) ?_
      intro i2 hi21 hi22
      omega
    obtain ⟨m, hm⟩ := h.hpow
    obtain ⟨j2, hj2⟩ := growSize_pow t.size needed
    rw [← hns] at hj2
    show Represents
        ⟨SegmentTree.rebuildFrom restored (ns - 1), ns, t.current_position⟩ S ∧ needed ≤ ns
    constructor
    · refine ⟨h.hpos, ?_, ⟨m + j2, by rw [hj2, hm]; rw [pow_add]⟩,
        le_trans h.hmin hgeself, hSns, ?_, ?_, ?_⟩
      · show (SegmentTree.rebuildFrom restored (ns - 1)).length = 2 * ns
        rw [hfin_len]
        omega
      · intro i hi
        show (SegmentTree.rebuildFrom restored (ns - 1)).getD (ns + i) NodeData.zero = _
        rw [hfin_leafzone]
        exact hres_leaf i hi
      · intro j hj1 hj3
        show (SegmentTree.rebuildFrom restored (ns - 1)).getD (ns + j) NodeData.zero = _
        rw [hfin_leafzone]
        exact hres_pad j hj1 hj3
      · intro i hi1 hi2
        exact hfin_int i hi1 hi2
    · exact hge

theorem represents_foldl_push {vs : List F} :
    ∀ {t : SegmentTree} {S : List F}, Represents t S → S.length + vs.length ≤ t.size →
      Represents (vs.foldl SegmentTree.push t) (S ++ vs) := by
  induction vs with
  | nil =>
      intro t S h _
      simpa using h
  | cons v rest ih =>
      intro t S h hle
      have h1 : Represents (t.push v) (S ++ [v]) :=
        represents_push h (by simp at hle; omega) v
      have hsz : (t.push v).size = t.size := rfl
      have h2 := ih h1 (by rw [hsz]; simp at hle ⊢; omega)
      simpa using h2

theorem represents_add_batch {t : SegmentTree} {S : List F} (h : Represents t S)
    (vs : List F) : Represents (t.add_batch vs) (S ++ vs) := by
  obtain ⟨h1, h2⟩ := represents_ensure h (t.current_position + vs.length)
  rw [SegmentTree.add_batch]
  refine represents_foldl_push h1 ?_
  have := h.hpos
  omega

/-! ### Preservation of the structural invariants alone (claim C4) -/

theorem structinv_new : StructInv SegmentTree.new := by
  refine ⟨?_, ⟨10, by show (1024 : Nat) = 2 ^ 10; norm_num⟩,
    by show (1024 : Nat) ≤ 1024; omega, by show (0 : Nat) ≤ 1024; omega, ?_, ?_⟩
  · show (List.replicate (1024 * 2) NodeData.zero).length = 2 * 1024
    rw [List.length_replicate]
  · intro j _ hj
    have hj' : j < 1024 := hj
    show (List.replicate (1024 * 2) NodeData.zero).getD (1024 + j) NodeData.zero = NodeData.zero
    rw [getD_replicate, if_pos (by omega)]
  · intro i hi1 hi2
    have hi2' : i < 1024 := hi2
    show (List.replicate (1024 * 2) NodeData.zero).getD i NodeData.zero =
      NodeData.merge ((List.replicate (1024 * 2) NodeData.zero).getD (2 * i) NodeData.zero)
        ((List.replicate (1024 * 2) NodeData.zero).getD (2 * i + 1) NodeData.zero)
    rw [getD_replicate, getD_replicate, getD_replicate, if_pos (by omega), if_pos (by omega),
      if_pos (by omega), NodeData.merge_zero_left]

theorem structinv_push {t : SegmentTree} (h : StructInv t)
    (hlt : t.current_position < t.size) (v : F) : StructInv (t.push v) := by
  have hanc_small : ∀ idx, isAnc idx (t.current_position + t.size) → idx < t.size := by
    intro idx ha
    have := isAnc_le_half ha
    omega
  have hlen0 : (t.tree.set (t.current_position + t.size) (NodeData.new v)).length = 2 * t.size := by
    simp [h.hlen]
  have htree : (t.push v).tree =
      SegmentTree.mergeUpAux (t.current_position + t.size)
        (t.tree.set (t.current_position + t.size) (NodeData.new v))
        (t.current_position + t.size) := rfl
  have hsize : (t.push v).size = t.size := rfl
  have hposn : (t.push v).current_position = t.current_position + 1 := rfl
  refine ⟨?_, ?_, ?_, ?_, ?_, ?_⟩
  · rw [htree, hsize, mergeUpAux_length, hlen0]
  · rw [hsize]; exact h.hpow
  · rw [hsize]; exact h.hmin
  · rw [hsize, hposn]; omega
  · intro j hj1 hj2
    rw [htree, hsize] at *
    rw [mergeUpAux_outside _ _ _ _ (fun ha => by have := hanc_small _ ha; omega)]
    rw [hposn] at hj1
    rw [getD_set_ne _ _ _ (by omega)]
    exact h.hpad j (by omega) hj2
  · intro i hi1 hi2
    rw [htree, hsize] at *
    refine mergeUpAux_internal _ _ _ t.size (le_refl _) (by omega) (by omega)
      (by rw [hlen0]) ?_ i hi1 hi2
    intro i2 hi21 hi22 hanc2
    have hne2 : t.current_position + t.size ≠ 2 * i2 := by
      intro hc
      exact hanc2 ⟨1, le_refl 1, by omega⟩
    have hne3 : t.current_position + t.size ≠ 2 * i2 + 1 := by
      intro hc
      exact hanc2 ⟨1, le_refl 1, by omega⟩
    rw [getD_set_ne _ _ _ (by omega), getD_set_ne _ _ _ hne2, getD_set_ne _ _ _ hne3]
    exact h.hint i2 hi21 hi22

theorem structinv_ensure {t : SegmentTree} (h : StructInv t) (needed : Nat) :
    StructInv (t.ensure_capacity needed) ∧ needed ≤ (t.ensure_capacity needed).size ∧
      (t.ensure_capacity needed).current_position = t.current_position := by
  by_cases hsm : needed ≤ t.size
  · rw [SegmentTree.ensure_capacity, if_pos hsm]
    exact ⟨h, hsm, rfl⟩
  · rw [SegmentTree.ensure_capacity, if_neg hsm]
    have hone : 1 ≤ t.size := by have := h.hmin; omega
    have hge : needed ≤ SegmentTree.growSize t.size needed := growSize_ge _ _ hone
    have hgeself : t.size ≤ SegmentTree.growSize t.size needed := growSize_ge_self _ _
    set ns := SegmentTree.growSize t.size needed with hns
    set leaves := (List.range t.current_position).map
      (fun i => t.tree.getD (t.size + i) NodeData.zero) with hleaves
    set base := List.replicate (ns * 2) NodeData.zero with hbase
    set restored := SegmentTree.placeLeaves base ns leaves with hrestored
    have hleaveslen : leaves.length = t.current_position := by
      rw [hleaves]; simp
    have hbaselen : base.length = ns * 2 := by simp [hbase]
    have hreslen : restored.length = ns * 2 := by
      rw [hrestored, placeLeaves_length, hbaselen]
    have hcpns : t.current_position ≤ ns := le_trans h.hle hgeself
    have hres_pad : ∀ j, t.current_position ≤ j → j < ns →
        restored.getD (ns + j) NodeData.zero = NodeData.zero := by
      intro j hj1 hj2
      rw [hrestored, placeLeaves_outside leaves base ns _ (by omega)]
      rw [hbase, getD_replicate, if_pos (by omega)]
    have hfin_len : (SegmentTree.rebuildFrom restored (ns - 1)).length = ns * 2 := by
      rw [rebuildFrom_length, hreslen]
    have hfin_leafzone : ∀ i, (SegmentTree.rebuildFrom restored (ns - 1)).getD (ns + i)
        NodeData.zero = restored.getD (ns + i) NodeData.zero := by
      intro i
      rw [rebuildFrom_above _ _ _ (by omega)]
    have hfin_int : ∀ i, 1 ≤ i → i < ns →
        (SegmentTree.rebuildFrom restored (ns - 1)).getD i NodeData.zero =
          NodeData.merge ((SegmentTree.rebuildFrom restored (ns - 1)).getD (2 * i) NodeData.zero)
            ((SegmentTree.rebuildFrom restored (ns - 1)).getD (2 * i + 1) NodeData.zero) := by
      refine rebuildFrom_internal (ns - 1) restored ns (by omega) (by omega) ?_
      intro i2 hi21 hi22
      omega
    obtain ⟨m, hm⟩ := h.hpow
    obtain ⟨j2, hj2⟩ := growSize_pow t.size needed
    rw [← hns] at hj2
    show StructInv ⟨SegmentTree.rebuildFrom restored (ns - 1), ns, t.current_position⟩ ∧
      needed ≤ ns ∧ t.current_position = t.current_position
    refine ⟨⟨?_, ⟨m + j2, by rw [hj2, hm]; rw [pow_add]⟩, le_trans h.hmin hgeself, hcpns,
      ?_, ?_⟩, hge, rfl⟩
    · show (SegmentTree.rebuildFrom restored (ns - 1)).length = 2 * ns
      rw [hfin_len]; omega
    · intro j hj1 hj2'
      show (SegmentTree.rebuildFrom restored (ns - 1)).getD (ns + j) NodeData.zero = _
      rw [hfin_leafzone]
      exact hres_pad j hj1 hj2'
    · intro i hi1 hi2
      exact hfin_int i hi1 hi2

theorem structinv_foldl_push {vs : List F} :
    ∀ {t : SegmentTree}, StructInv t → t.current_position + vs.length ≤ t.size →
      StructInv (vs.foldl SegmentTree.push t) := by
  induction vs with
  | nil => intro t h _; exact h
  | cons v rest ih =>
      intro t h hle
      have h1 : StructInv (t.push v) := structinv_push h (by simp at hle; omega) v
      have hsz : (t.push v).size = t.size := rfl
      have hcp : (t.push v).current_position = t.current_position + 1 := rfl
      exact ih h1 (by rw [hsz, hcp]; simp at hle; omega)

theorem structinv_add_batch {t : SegmentTree} (h : StructInv t) (vs : List F) :
    StructInv (t.add_batch vs) := by
  obtain ⟨h1, h2, h3⟩ := structinv_ensure h (t.current_position + vs.length)
  rw [SegmentTree.add_batch]
  exact structinv_foldl_push h1 (by rw [h3]; omega)

/-! ### Query correctness -/

theorem queryAux_empty (fuel : Nat) :
    ∀ tr node l r q, SegmentTree.queryAux fuel tr node l r q q = NodeData.zero := by
  induction fuel with
  | zero => intro tr node l r q; rfl
  | succ f ih =>
      intro tr node l r q
      simp only [SegmentTree.queryAux]
      by_cases h1 : q ≤ l ∨ r ≤ q
      · rw [if_pos h1]
      · rw [if_neg h1, if_neg (by omega), ih, ih, NodeData.merge_zero_left]

theorem windowFold_empty (tr : List NodeData) (size a b : Nat) (h : b ≤ a) :
    windowFold tr size a b = NodeData.zero := by
  rw [windowFold, Nat.sub_eq_zero_of_le h]
  rfl

theorem windowFold_wf {tr : List NodeData} {size : Nat}
    (hwf : ∀ i, i < size → NodeData.Wf (tr.getD (size + i) NodeData.zero)) (a b : Nat)
    (hb : b ≤ size) : NodeData.Wf (windowFold tr size a b) := by
  apply wf_foldMerge
  intro d hd
  rw [List.mem_map] at hd
  obtain ⟨i, hi, rfl⟩ := hd
  rw [List.mem_range'_1] at hi
  exact hwf i (by omega)

theorem windowFold_append {tr : List NodeData} {size : Nat}
    (hwf : ∀ i, i < size → NodeData.Wf (tr.getD (size + i) NodeData.zero)) (a b c : Nat)
    (hab : a ≤ b) (hbc : b ≤ c) (hcs : c ≤ size) :
    NodeData.merge (windowFold tr size a b) (windowFold tr size b c) =
      windowFold tr size a c := by
  have hwin : ∀ x y : Nat, y ≤ size →
      ∀ d ∈ (List.range' x (y - x)).map (fun i => tr.getD (size + i) NodeData.zero),
        NodeData.Wf d := by
    intro x y hy d hd
    rw [List.mem_map] at hd
    obtain ⟨i, hi, rfl⟩ := hd
    rw [List.mem_range'_1] at hi
    exact hwf i (by omega)
  rw [windowFold, windowFold, windowFold,
    ← foldMerge_append (hwin a b (le_trans hbc hcs)) (hwin b c hcs), ← List.map_append]
  have h1 : a + (b - a) = b := by omega
  have h2 : (b - a) + (c - b) = c - a := by omega
  have h3 := range'_append_nat a (b - a) (c - b)
  rw [h1, h2] at h3
  rw [h3]

theorem node_eq_fold {tr : List NodeData} {size : Nat}
    (hint : ∀ i, 1 ≤ i → i < size →
      tr.getD i NodeData.zero =
        NodeData.merge (tr.getD (2 * i) NodeData.zero) (tr.getD (2 * i + 1) NodeData.zero))
    (hwf : ∀ i, i < size → NodeData.Wf (tr.getD (size + i) NodeData.zero)) :
    ∀ (j node l r : Nat), r = l + 2 ^ j → node * 2 ^ j = size + l → r ≤ size →
      tr.getD node NodeData.zero = windowFold tr size l r := by
  intro j
  induction j with
  | zero =>
      intro node l r hr hnode hrs
      simp only [pow_zero, Nat.mul_one] at hr hnode
      subst hnode
      rw [windowFold, show r - l = 1 from by omega]
      show tr.getD (size + l) NodeData.zero = foldMerge [tr.getD (size + l) NodeData.zero]
      rw [foldMerge]
      simp [NodeData.merge_zero_left]
  | succ jj ih =>
      intro node l r hr hnode hrs
      have hQ2 : 2 ≤ 2 ^ (jj + 1) := by
        calc (2 : Nat) = 2 ^ 1 := by norm_num
        _ ≤ 2 ^ (jj + 1) := Nat.pow_le_pow_right (by norm_num) (by omega)
      have hj1 : 1 ≤ (2 : Nat) ^ jj := Nat.one_le_two_pow
      have hrs' : l + 2 ^ (jj + 1) ≤ size := by omega
      have hnode1 : 1 ≤ node := by
        rcases Nat.eq_zero_or_pos node with h0 | h0
        · subst h0
          simp at hnode
          omega
        · exact h0
      have hnodelt : node < size := by
        by_contra hcon
        push_neg at hcon
        have h1 : size * 2 ^ (jj + 1) ≤ node * 2 ^ (jj + 1) :=
          Nat.mul_le_mul_right _ hcon
        have h2 : size * 2 ≤ size * 2 ^ (jj + 1) := Nat.mul_le_mul_left _ hQ2
        omega
      have hpowsucc : (2 : Nat) ^ (jj + 1) = 2 * 2 ^ jj := by ring
      have c1 : (2 * node) * 2 ^ jj = size + l := by
        rw [← hnode]; ring
      have c2 : (2 * node + 1) * 2 ^ jj = size + (l + 2 ^ jj) := by
        have : (2 * node + 1) * 2 ^ jj = node * 2 ^ (jj + 1) + 2 ^ jj := by ring
        rw [this, hnode]
        omega
      have hmidr : r = (l + 2 ^ jj) + 2 ^ jj := by omega
      rw [hint node hnode1 hnodelt]
      rw [ih (2 * node) l (l + 2 ^ jj) rfl c1 (by omega)]
      rw [ih (2 * node + 1) (l + 2 ^ jj) r hmidr c2 hrs]
      exact windowFold_append hwf l (l + 2 ^ jj) r (by omega) (by omega) hrs

theorem queryAux_eq {tr : List NodeData} {size : Nat}
    (hint : ∀ i, 1 ≤ i → i < size →
      tr.getD i NodeData.zero =
        NodeData.merge (tr.getD (2 * i) NodeData.zero) (tr.getD (2 * i + 1) NodeData.zero))
    (hwf : ∀ i, i < size → NodeData.Wf (tr.getD (size + i) NodeData.zero)) :
    ∀ (j fuel node l r qs qe : Nat), r - l < fuel → r = l + 2 ^ j →
      node * 2 ^ j = size + l → r ≤ size →
      SegmentTree.queryAux fuel tr node l r qs qe =
        windowFold tr size (max l qs) (min r qe) := by
  intro j
  induction j with
  | zero =>
      intro fuel node l r qs qe hfuel hr hnode hrs
      match fuel with
      | 0 => omega
      | fuel + 1 =>
        simp only [pow_zero, Nat.mul_one] at hr hnode
        simp only [SegmentTree.queryAux]
        by_cases h1 : qe ≤ l ∨ r ≤ qs
        · rw [if_pos h1, windowFold_empty _ _ _ _ (by omega)]
        · rw [if_neg h1, if_pos (by omega : qs ≤ l ∧ r ≤ qe)]
          rw [show max l qs = l from by omega, show min r qe = r from by omega]
          exact node_eq_fold hint hwf 0 node l r (by simpa using hr) (by simpa using hnode) hrs
  | succ jj ih =>
      intro fuel node l r qs qe hfuel hr hnode hrs
      match fuel with
      | 0 => omega
      | fuel + 1 =>
        simp only [SegmentTree.queryAux]
        have hQ2 : 2 ≤ 2 ^ (jj + 1) := by
          calc (2 : Nat) = 2 ^ 1 := by norm_num
          _ ≤ 2 ^ (jj + 1) := Nat.pow_le_pow_right (by norm_num) (by omega)
        have hj1 : 1 ≤ (2 : Nat) ^ jj := Nat.one_le_two_pow
        have hpowsucc : (2 : Nat) ^ (jj + 1) = 2 * 2 ^ jj := by ring
        by_cases h1 : qe ≤ l ∨ r ≤ qs
        · rw [if_pos h1, windowFold_empty _ _ _ _ (by omega)]
        · rw [if_neg h1]
          by_cases h2 : qs ≤ l ∧ r ≤ qe
          · rw [if_pos h2]
            rw [show max l qs = l from by omega, show min r qe = r from by omega]
            exact node_eq_fold hint hwf (jj + 1) node l r hr hnode hrs
          · rw [if_neg h2]
            have hmid : (l + r) / 2 = l + 2 ^ jj := by
              rw [hr, hpowsucc]
              omega
            have c1 : (2 * node) * 2 ^ jj = size + l := by
              rw [← hnode]; ring
            have c2 : (2 * node + 1) * 2 ^ jj = size + (l + 2 ^ jj) := by
              have h : (2 * node + 1) * 2 ^ jj = node * 2 ^ (jj + 1) + 2 ^ jj := by ring
              rw [h, hnode]
              omega
            have hmidr : r = (l + 2 ^ jj) + 2 ^ jj := by omega
            rw [hmid]
            rw [ih fuel (2 * node) l (l + 2 ^ jj) qs qe (by omega) rfl c1 (by omega)]
            rw [ih fuel (2 * node + 1) (l + 2 ^ jj) r qs qe (by omega) hmidr c2 hrs]
            by_cases hA : qe ≤ l + 2 ^ jj
            · rw [windowFold_empty _ _ _ _ (by omega : min r qe ≤ max (l + 2 ^ jj) qs)]
              rw [NodeData.merge_wf_zero_right (windowFold_wf hwf _ _ (by omega))]
              rw [show min (l + 2 ^ jj) qe = min r qe from by omega]
            · by_cases hB : l + 2 ^ jj ≤ qs
              · rw [windowFold_empty _ _ (max l qs) _ (by omega), NodeData.merge_zero_left]
                rw [show max (l + 2 ^ jj) qs = max l qs from by omega]
              · rw [show min (l + 2 ^ jj) qe = l + 2 ^ jj from by omega,
                  show max (l + 2 ^ jj) qs = l + 2 ^ jj from by omega]
                exact windowFold_append hwf (max l qs) (l + 2 ^ jj) (min r qe) (by omega)
                  (by omega) (by omega)

theorem query_range_eq {t : SegmentTree} {S : List F} (h : Represents t S) (qs qe : Nat) :
    t.query_range qs qe = windowFold t.tree t.size qs (min t.size qe) := by
  have hwf : ∀ i, i < t.size → NodeData.Wf (t.tree.getD (t.size + i) NodeData.zero) := by
    intro i hi
    by_cases hiS : i < S.length
    · rw [h.hleaf i hiS]; exact NodeData.wf_new _
    · rw [h.hpad i (by omega) hi]; exact NodeData.wf_zero
  obtain ⟨m, hm⟩ := h.hpow
  have hq := queryAux_eq h.hint hwf m (t.size - 0 + 1) 1 0 t.size qs qe (by omega)
    (by omega) (by omega) (le_refl _)
  rw [SegmentTree.query_range, SegmentTree.query_internal, hq]
  rw [show max 0 qs = qs from by omega]

theorem windowFold_eq_fold {t : SegmentTree} {S : List F} (h : Represents t S)
    (qs qe : Nat) (hqe : qe ≤ S.length) :
    windowFold t.tree t.size qs qe =
      ((S.drop qs).take (qe - qs)).foldl
        (fun a v => NodeData.merge a (NodeData.new v)) NodeData.zero := by
  by_cases hq : qe ≤ qs
  · rw [windowFold_empty _ _ _ _ hq, Nat.sub_eq_zero_of_le hq]
    simp
  · rw [windowFold, foldMerge]
    have hmap : (List.range' qs (qe - qs)).map (fun i => t.tree.getD (t.size + i) NodeData.zero)
        = (List.range' qs (qe - qs)).map (fun i => NodeData.new (S.getD i (F.fin 0))) := by
      apply List.map_congr_left
      intro i hi
      rw [List.mem_range'_1] at hi
      exact h.hleaf i (by omega)
    rw [hmap]
    have hcomp : (fun i => NodeData.new (S.getD i (F.fin 0))) =
        NodeData.new ∘ (fun i => S.getD i (F.fin 0)) := rfl
    rw [hcomp, ← List.map_map, map_range'_getD S _ (qe - qs) qs (by omega), List.foldl_map]

/-- Componentwise description of the left-to-right fold of singleton
summaries over a starting summary with positive count. -/
theorem foldl_merge_new (vs : List F) (acc : NodeData) (hacc : 0 < acc.count) :
    vs.foldl (fun a v => NodeData.merge a (NodeData.new v)) acc =
      { min := vs.foldl F.fmin acc.min
        max := vs.foldl F.fmax acc.max
        sum := vs.foldl F.add acc.sum
        sum_squares := vs.foldl (fun a x => F.add a (F.mul x x)) acc.sum_squares
        count := acc.count + vs.length
        last := vs.getLastD acc.last } := by
  induction vs generalizing acc with
  | nil => simp
  | cons x xs ih =>
      have hstep : NodeData.merge acc (NodeData.new x) =
          { min := F.fmin acc.min x
            max := F.fmax acc.max x
            sum := F.add acc.sum x
            sum_squares := F.add acc.sum_squares (F.mul x x)
            count := acc.count + 1
            last := x } := by
        simp [NodeData.merge, NodeData.new, Int.ne_of_gt hacc]
      have h1 : (x :: xs).foldl (fun a v => NodeData.merge a (NodeData.new v)) acc =
          xs.foldl (fun a v => NodeData.merge a (NodeData.new v))
            (NodeData.merge acc (NodeData.new x)) := rfl
      rw [h1, hstep]
      have hih := ih
        { min := F.fmin acc.min x
          max := F.fmax acc.max x
          sum := F.add acc.sum x
          sum_squares := F.add acc.sum_squares (F.mul x x)
          count := acc.count + 1
          last := x } (by simp; omega)
      rw [hih]
      rw [NodeData.mk.injEq]
      exact ⟨rfl, rfl, rfl, rfl, by push_cast [List.length_cons]; ring,
        (List.getLastD_cons acc.last x xs).symm⟩

/-! ### Position bookkeeping -/

theorem ensure_capacity_cp (t : SegmentTree) (needed : Nat) :
    (t.ensure_capacity needed).current_position = t.current_position := by
  rw [SegmentTree.ensure_capacity]
  split <;> rfl

theorem foldl_push_cp (vs : List F) :
    ∀ t : SegmentTree,
      (vs.foldl SegmentTree.push t).current_position = t.current_position + vs.length := by
  induction vs with
  | nil => intro t; simp
  | cons v rest ih =>
      intro t
      rw [List.foldl_cons, ih]
      show t.current_position + 1 + rest.length = _
      simp
      omega

theorem add_batch_cp (t : SegmentTree) (vs : List F) :
    (t.add_batch vs).current_position = t.current_position + vs.length := by
  rw [SegmentTree.add_batch, foldl_push_cp, ensure_capacity_cp]

/-! ### Claim theorems -/

/-- C5 (counterexample): the claim asserts `merge(x, zero) = x` for
every `x`; it fails for the record with `count = 0` but non-identity
payload fields, on which `merge` returns its right argument `zero`. -/
theorem c5_counterexample :
    NodeData.merge
        { min := F.fin 5, max := F.fin 5, sum := F.fin 5, sum_squares := F.fin 25,
          count := 0, last := F.fin 5 } NodeData.zero ≠
      { min := F.fin 5, max := F.fin 5, sum := F.fin 5, sum_squares := F.fin 25,
        count := 0, last := F.fin 5 } := by
  have hz : NodeData.merge
      { min := F.fin 5, max := F.fin 5, sum := F.fin 5, sum_squares := F.fin 25,
        count := 0, last := F.fin 5 } NodeData.zero = NodeData.zero := rfl
  rw [hz]
  intro h
  simpa [NodeData.zero] using congrArg NodeData.min h

/-- C5 (amended): `merge` is associative on summaries with non-negative
counts (all summaries the program builds); `merge(zero, x) = x` for
every `x`, and `merge(x, zero) = x` for every `x` with `x.count ≠ 0`;
the merged `last` is `R.last` when `R.count > 0`, and `L.last` when
`R.count = 0` and `L.count ≠ 0` (when both counts are 0 the result is
`zero`-side `R`). -/
theorem c5_merge_law :
    (∀ a b c : NodeData, 0 ≤ a.count → 0 ≤ b.count → 0 ≤ c.count →
      NodeData.merge (NodeData.merge a b) c = NodeData.merge a (NodeData.merge b c)) ∧
    (∀ x : NodeData, NodeData.merge NodeData.zero x = x) ∧
    (∀ x : NodeData, x.count ≠ 0 → NodeData.merge x NodeData.zero = x) ∧
    (∀ l r : NodeData, 0 < r.count → (NodeData.merge l r).last = r.last) ∧
    (∀ l r : NodeData, r.count = 0 → l.count ≠ 0 → (NodeData.merge l r).last = l.last) := by
  refine ⟨?_, NodeData.merge_zero_left, ?_, ?_, ?_⟩
  · intro a b c ha hb hc
    exact NodeData.merge_assoc ha hb hc
  · intro x hx
    simp [NodeData.merge, NodeData.zero, hx]
  · intro l r hr
    exact NodeData.last_merge_pos hr
  · intro l r hr hl
    exact NodeData.last_merge_zero hr hl

/-- Witness for C5: the amended law at concrete singleton summaries. -/
theorem c5_merge_law_witness :
    NodeData.merge (NodeData.merge (NodeData.new (F.fin 1)) (NodeData.new (F.fin 2)))
        (NodeData.new (F.fin 3)) =
      NodeData.merge (NodeData.new (F.fin 1))
        (NodeData.merge (NodeData.new (F.fin 2)) (NodeData.new (F.fin 3))) ∧
    NodeData.merge (NodeData.new (F.fin 1)) NodeData.zero = NodeData.new (F.fin 1) ∧
    (NodeData.merge (NodeData.new (F.fin 1)) (NodeData.new (F.fin 2))).last = F.fin 2 :=
  ⟨c5_merge_law.1 _ _ _ (by decide) (by decide) (by decide),
   c5_merge_law.2.2.1 _ (by decide),
   c5_merge_law.2.2.2.1 _ _ (by decide)⟩

/-- C4: every `add_batch` (growth included) preserves the structural
invariants: internal nodes are merges of their children, leaf slots at
index `size + current_position` and beyond hold the identity, and
`size` is a power of two with `size ≥ max(1024, current_position)`. -/
theorem c4_invariants (t : SegmentTree) (vs : List F) (h : StructInv t) :
    StructInv (t.add_batch vs) :=
  structinv_add_batch h vs

/-- Witness for C4: the invariants hold for the fresh tree and are
preserved by a concrete append. -/
theorem c4_invariants_witness :
    StructInv SegmentTree.new ∧ StructInv (SegmentTree.new.add_batch [F.fin 1]) :=
  ⟨structinv_new, c4_invariants _ _ structinv_new⟩

/-- C2: `AddBatch` validation is atomic: an empty or oversize
(`> 10_000`) batch gets the reply "Invalid batch size" and leaves the
state (in particular `current_position`) unchanged; a valid batch gets
"Batch added successfully" and advances `current_position` by exactly
the batch length. -/
theorem c2_batch_validation (t : SegmentTree) (values : List F) :
    ((values.length = 0 ∨ 10000 < values.length) →
      applyAddBatch t values = (t, "Invalid batch size")) ∧
    (values.length ≠ 0 → values.length ≤ 10000 →
      (applyAddBatch t values).2 = "Batch added successfully" ∧
      (applyAddBatch t values).1.current_position = t.current_position + values.length) := by
  constructor
  · intro h
    rw [applyAddBatch, if_pos h]
  · intro h1 h2
    rw [applyAddBatch, if_neg (by omega)]
    exact ⟨rfl, add_batch_cp t values⟩

/-- Witness for C2: the empty batch is rejected without mutation, and a
singleton batch is accepted and advances the position by one. -/
theorem c2_batch_validation_witness :
    applyAddBatch SegmentTree.new [] = (SegmentTree.new, "Invalid batch size") ∧
    (applyAddBatch SegmentTree.new [F.fin 1]).2 = "Batch added successfully" ∧
    (applyAddBatch SegmentTree.new [F.fin 1]).1.current_position = 1 :=
  ⟨(c2_batch_validation SegmentTree.new []).1 (Or.inl rfl),
   ((c2_batch_validation SegmentTree.new [F.fin 1]).2 (by decide) (by decide)).1,
   ((c2_batch_validation SegmentTree.new [F.fin 1]).2 (by decide) (by decide)).2⟩

/-! ### Concrete evaluation of the five-observation scenario -/

theorem represents5 :
    Represents (SegmentTree.new.add_batch [F.fin 1, F.fin 2, F.fin 3, F.fin 4, F.fin 5])
      [F.fin 1, F.fin 2, F.fin 3, F.fin 4, F.fin 5] := by
  have h := represents_add_batch represents_new [F.fin 1, F.fin 2, F.fin 3, F.fin 4, F.fin 5]
  simpa using h

theorem query5 :
    (SegmentTree.new.add_batch [F.fin 1, F.fin 2, F.fin 3, F.fin 4, F.fin 5]).query_range 0 5 =
      { min := F.fin 1, max := F.fin 5, sum := F.fin 15, sum_squares := F.fin 55, count := 5,
        last := F.fin 5 } := by
  rw [query_range_eq represents5 0 5]
  rw [show min (SegmentTree.new.add_batch [F.fin 1, F.fin 2, F.fin 3, F.fin 4, F.fin 5]).size 5
      = 5 from by
    have h := represents5.hle
    simp at h ⊢
    omega]
  rw [windowFold_eq_fold represents5 0 5 (by simp)]
  norm_num [NodeData.merge, NodeData.new, F.add, F.fmin, F.fmax, F.mul, min_def, max_def,
    NodeData.zero]

theorem position5 :
    (SegmentTree.new.add_batch [F.fin 1, F.fin 2, F.fin 3, F.fin 4, F.fin 5]).current_position
      = 5 := by
  rw [add_batch_cp]
  rfl

/-- C3: the `GetStats` reply is the zero-filled record when the window
summary has `count = 0`, and otherwise is built from the window summary
as `min/max/last` verbatim, `avg = sum/count` and
`var = sum_squares/count − avg²`; concretely, after appending
`[1,2,3,4,5]` to a fresh symbol, `GetStats(k=1)` yields
`{min 1, max 5, last 5, avg 3, var 2}`. -/
theorem c3_getstats_reply (t : SegmentTree) (k : Nat) :
    (getStats t k =
      if (t.query_range (t.current_position - wpow10 k) t.current_position).count = 0 then
        Stats.zeroed
      else
        { min := (t.query_range (t.current_position - wpow10 k) t.current_position).min
          max := (t.query_range (t.current_position - wpow10 k) t.current_position).max
          last := (t.query_range (t.current_position - wpow10 k) t.current_position).last
          avg := F.div (t.query_range (t.current_position - wpow10 k) t.current_position).sum
            (F.ofInt (t.query_range (t.current_position - wpow10 k) t.current_position).count)
          var := F.sub
            (F.div
              (t.query_range (t.current_position - wpow10 k) t.current_position).sum_squares
              (F.ofInt (t.query_range (t.current_position - wpow10 k) t.current_position).count))
            (F.mul
              (F.div (t.query_range (t.current_position - wpow10 k) t.current_position).sum
                (F.ofInt (t.query_range (t.current_position - wpow10 k) t.current_position).count))
              (F.div (t.query_range (t.current_position - wpow10 k) t.current_position).sum
                (F.ofInt
                  (t.query_range (t.current_position - wpow10 k) t.current_position).count))) }) ∧
    getStats (SegmentTree.new.add_batch [F.fin 1, F.fin 2, F.fin 3, F.fin 4, F.fin 5]) 1 =
      { min := F.fin 1, max := F.fin 5, last := F.fin 5, avg := F.fin 3, var := F.fin 2 } := by
  constructor
  · rfl
  · rw [getStats, position5, show wpow10 1 = 10 from rfl, show (5 : Nat) - 10 = 0 from rfl,
      statsFromWindow]
    rw [query5]
    norm_num [Stats.zeroed, F.div, F.ofInt, F.sub, F.mul, F.add, F.neg]

/-! ### C1 helpers -/

theorem represents_foldl_add_batch (batches : List (List F)) :
    ∀ (t : SegmentTree) (S : List F), Represents t S →
      Represents (batches.foldl SegmentTree.add_batch t) (S ++ batches.flatten) := by
  induction batches with
  | nil => intro t S h; simpa using h
  | cons b bs ih =>
      intro t S h
      have h2 := ih _ _ (represents_add_batch h b)
      simpa [List.append_assoc] using h2

theorem sum_map_one (T : List F) : (T.map (fun _ => (1 : ℤ))).sum = T.length := by
  induction T with
  | nil => simp
  | cons v vs ih =>
      rw [List.map_cons, List.sum_cons, ih]
      simp
      omega

theorem count_fold_new (T : List F) :
    (T.foldl (fun a v => NodeData.merge a (NodeData.new v)) NodeData.zero).count
      = T.length := by
  have h : T.foldl (fun a v => NodeData.merge a (NodeData.new v)) NodeData.zero
      = foldMerge (T.map NodeData.new) := by
    rw [foldMerge, List.foldl_map]
  rw [h, foldMerge, count_foldl_merge]
  have h2 : (T.map NodeData.new).map NodeData.count = T.map (fun _ => (1 : ℤ)) := by
    rw [List.map_map]
    rfl
  rw [h2, sum_map_one]
  show (0 : ℤ) + T.length = T.length
  omega

theorem fold_new_cons (v : F) (vs : List F) :
    (v :: vs).foldl (fun a x => NodeData.merge a (NodeData.new x)) NodeData.zero =
      { min := vs.foldl F.fmin v, max := vs.foldl F.fmax v, sum := vs.foldl F.add v,
        sum_squares := vs.foldl (fun a x => F.add a (F.mul x x)) (F.mul v v),
        count := 1 + vs.length, last := vs.getLastD v } := by
  rw [List.foldl_cons, NodeData.merge_zero_left]
  rw [foldl_merge_new vs (NodeData.new v) (by simp [NodeData.new])]
  rfl

/-- C1: after appending the stream `S` (in any batch division) the
suffix query over `[S.length − 10^k, S.length)` returns the window
length as `count`, the left-to-right folds of the window under the
code's `min`/`max`/`+`/`+ of squares` operations, and the final
observation as `last` (for non-empty windows). -/
theorem c1_aggregation (batches : List (List F)) (k : Nat) (hk : 10 ^ k < 2 ^ 64) :
    ((batches.foldl SegmentTree.add_batch SegmentTree.new).query_range
        (batches.flatten.length - 10 ^ k) batches.flatten.length).count =
      ((batches.flatten.drop (batches.flatten.length - 10 ^ k)).length : ℤ) ∧
    (∀ v vs, batches.flatten.drop (batches.flatten.length - 10 ^ k) = v :: vs →
      (batches.foldl SegmentTree.add_batch SegmentTree.new).query_range
          (batches.flatten.length - 10 ^ k) batches.flatten.length =
        { min := vs.foldl F.fmin v, max := vs.foldl F.fmax v, sum := vs.foldl F.add v,
          sum_squares := vs.foldl (fun a x => F.add a (F.mul x x)) (F.mul v v),
          count := 1 + vs.length, last := vs.getLastD v }) := by
  have hrep : Represents (batches.foldl SegmentTree.add_batch SegmentTree.new)
      batches.flatten := by
    have h := represents_foldl_add_batch batches SegmentTree.new [] represents_new
    simpa using h
  have hq : (batches.foldl SegmentTree.add_batch SegmentTree.new).query_range
      (batches.flatten.length - 10 ^ k) batches.flatten.length =
      (batches.flatten.drop (batches.flatten.length - 10 ^ k)).foldl
        (fun a x => NodeData.merge a (NodeData.new x)) NodeData.zero := by
    rw [query_range_eq hrep]
    rw [show min (batches.foldl SegmentTree.add_batch SegmentTree.new).size
        batches.flatten.length = batches.flatten.length from by
      have h := hrep.hle
      omega]
    rw [windowFold_eq_fold hrep _ batches.flatten.length (le_refl _)]
    rw [show batches.flatten.length - (batches.flatten.length - 10 ^ k) =
        (batches.flatten.drop (batches.flatten.length - 10 ^ k)).length from by
      rw [List.length_drop]]
    rw [List.take_length]
  constructor
  · rw [hq, count_fold_new]
  · intro v vs hvs
    rw [hq, hvs, fold_new_cons]

/-- Witness for C1: the suffix query over the whole five-element stream
equals the left-to-right folds of the window. -/
theorem c1_aggregation_witness :
    10 ^ 1 < 2 ^ 64 ∧
    ([[F.fin 1, F.fin 2, F.fin 3, F.fin 4, F.fin 5]].foldl SegmentTree.add_batch
          SegmentTree.new).query_range
        (([[F.fin 1, F.fin 2, F.fin 3, F.fin 4, F.fin 5]] :
            List (List F)).flatten.length - 10 ^ 1)
        ([[F.fin 1, F.fin 2, F.fin 3, F.fin 4, F.fin 5]] : List (List F)).flatten.length =
      { min := [F.fin 2, F.fin 3, F.fin 4, F.fin 5].foldl F.fmin (F.fin 1),
        max := [F.fin 2, F.fin 3, F.fin 4, F.fin 5].foldl F.fmax (F.fin 1),
        sum := [F.fin 2, F.fin 3, F.fin 4, F.fin 5].foldl F.add (F.fin 1),
        sum_squares := [F.fin 2, F.fin 3, F.fin 4, F.fin 5].foldl
          (fun a x => F.add a (F.mul x x)) (F.mul (F.fin 1) (F.fin 1)),
        count := 1 + ([F.fin 2, F.fin 3, F.fin 4, F.fin 5] : List F).length,
        last := [F.fin 2, F.fin 3, F.fin 4, F.fin 5].getLastD (F.fin 1) } :=
  ⟨by decide,
   (c1_aggregation [[F.fin 1, F.fin 2, F.fin 3, F.fin 4, F.fin 5]] 1 (by decide)).2
     (F.fin 1) [F.fin 2, F.fin 3, F.fin 4, F.fin 5] rfl⟩

/-- C9: appending a further batch leaves every previously appended
singleton leaf summary intact (across growth, at the same logical
offset) and leaves every query whose range ends at or before the old
position unchanged. -/
theorem c9_frame (batches : List (List F)) (vs : List F) (qs qe : Nat)
    (hqe : qe ≤ batches.flatten.length) :
    (∀ q, q < batches.flatten.length →
      ((batches.foldl SegmentTree.add_batch SegmentTree.new).add_batch vs).tree.getD
          (((batches.foldl SegmentTree.add_batch SegmentTree.new).add_batch vs).size + q)
          NodeData.zero =
        (batches.foldl SegmentTree.add_batch SegmentTree.new).tree.getD
          ((batches.foldl SegmentTree.add_batch SegmentTree.new).size + q) NodeData.zero) ∧
    ((batches.foldl SegmentTree.add_batch SegmentTree.new).add_batch vs).query_range qs qe =
      (batches.foldl SegmentTree.add_batch SegmentTree.new).query_range qs qe := by
  have h0 : Represents (batches.foldl SegmentTree.add_batch SegmentTree.new)
      batches.flatten := by
    have h := represents_foldl_add_batch batches SegmentTree.new [] represents_new
    simpa using h
  have h1 : Represents ((batches.foldl SegmentTree.add_batch SegmentTree.new).add_batch vs)
      (batches.flatten ++ vs) := represents_add_batch h0 vs
  constructor
  · intro q hqS
    rw [h1.hleaf q (by simp only [List.length_append]; omega), h0.hleaf q hqS,
      getD_append_left _ _ _ _ hqS]
  · rw [query_range_eq h1, query_range_eq h0]
    rw [show min ((batches.foldl SegmentTree.add_batch SegmentTree.new).add_batch vs).size qe
        = qe from by
      have h := h1.hle
      simp only [List.length_append] at h
      omega]
    rw [show min (batches.foldl SegmentTree.add_batch SegmentTree.new).size qe = qe from by
      have h := h0.hle
      omega]
    rw [windowFold_eq_fold h1 qs qe (by simp only [List.length_append]; omega),
      windowFold_eq_fold h0 qs qe hqe]
    by_cases hqs : qe ≤ qs
    · rw [Nat.sub_eq_zero_of_le hqs]
      simp
    · rw [List.drop_append_of_le_length (by omega)]
      rw [List.take_append_of_le_length (by rw [List.length_drop]; omega)]

/-- Witness for C9: a one-element append after a one-element stream
leaves the query over the old stream unchanged. -/
theorem c9_frame_witness :
    (1 : Nat) ≤ ([[F.fin 1]] : List (List F)).flatten.length ∧
    (([[F.fin 1]].foldl SegmentTree.add_batch SegmentTree.new).add_batch
        [F.fin 2]).query_range 0 1 =
      ([[F.fin 1]].foldl SegmentTree.add_batch SegmentTree.new).query_range 0 1 :=
  ⟨by decide, (c9_frame [[F.fin 1]] [F.fin 2] 0 1 (by decide)).2⟩

/-! ### C7: NaN behaviour -/

theorem represents3nan :
    Represents (SegmentTree.new.add_batch [F.fin 1, F.nan, F.fin 3])
      [F.fin 1, F.nan, F.fin 3] := by
  have h := represents_add_batch represents_new [F.fin 1, F.nan, F.fin 3]
  simpa using h

/-- C7 (counterexample): with the queried window `[1, NaN, 3]` the
summary has NaN in `sum` and `sum_squares` but `min = 1` and `max = 3`:
Rust's `f64::min`/`f64::max` return the other operand when one side is
NaN, so a NaN observation does not poison `min`/`max` as the claim
states. -/
theorem c7_counterexample :
    (SegmentTree.new.add_batch [F.fin 1, F.nan, F.fin 3]).query_range 0 3 =
      { min := F.fin 1, max := F.fin 3, sum := F.nan, sum_squares := F.nan, count := 3,
        last := F.fin 3 } ∧
    F.fin 1 ≠ F.nan ∧ F.fin 3 ≠ F.nan := by
  refine ⟨?_, by simp, by simp⟩
  rw [query_range_eq represents3nan 0 3]
  rw [show min (SegmentTree.new.add_batch [F.fin 1, F.nan, F.fin 3]).size 3 = 3 from by
    have h := represents3nan.hle
    simp at h ⊢
    omega]
  rw [windowFold_eq_fold represents3nan 0 3 (by simp)]
  norm_num [NodeData.merge, NodeData.new, F.add, F.fmin, F.fmax, F.mul, min_def, max_def,
    NodeData.zero]

theorem foldl_add_nan :
    ∀ (vs : List F) (a : F), (a = F.nan ∨ F.nan ∈ vs) → vs.foldl F.add a = F.nan := by
  intro vs
  induction vs with
  | nil =>
      intro a h
      rcases h with rfl | h
      · rfl
      · simp at h
  | cons x xs ih =>
      intro a h
      rw [List.foldl_cons]
      rcases h with rfl | h
      · exact ih _ (Or.inl (F.nan_add x))
      · rw [List.mem_cons] at h
        rcases h with rfl | h
        · exact ih _ (Or.inl (F.add_nan a))
        · exact ih _ (Or.inr h)

theorem foldl_addsq_nan :
    ∀ (vs : List F) (a : F), (a = F.nan ∨ F.nan ∈ vs) →
      vs.foldl (fun acc x => F.add acc (F.mul x x)) a = F.nan := by
  intro vs
  induction vs with
  | nil =>
      intro a h
      rcases h with rfl | h
      · rfl
      · simp at h
  | cons x xs ih =>
      intro a h
      rw [List.foldl_cons]
      rcases h with rfl | h
      · exact ih _ (Or.inl (F.nan_add _))
      · rw [List.mem_cons] at h
        rcases h with rfl | h
        · rw [F.mul_nan_self, F.add_nan]
          exact ih _ (Or.inl rfl)
        · exact ih _ (Or.inr h)

theorem foldl_fmin_nan :
    ∀ (vs : List F) (a : F), vs.foldl F.fmin a = F.nan → a = F.nan ∧ ∀ x ∈ vs, x = F.nan := by
  intro vs
  induction vs with
  | nil =>
      intro a h
      exact ⟨h, by simp⟩
  | cons x xs ih =>
      intro a h
      rw [List.foldl_cons] at h
      obtain ⟨h1, h2⟩ := ih _ h
      obtain ⟨ha, hx⟩ := F.fmin_eq_nan.mp h1
      refine ⟨ha, ?_⟩
      intro y hy
      rw [List.mem_cons] at hy
      rcases hy with rfl | hy
      · exact hx
      · exact h2 y hy

theorem foldl_fmax_nan :
    ∀ (vs : List F) (a : F), vs.foldl F.fmax a = F.nan → a = F.nan ∧ ∀ x ∈ vs, x = F.nan := by
  intro vs
  induction vs with
  | nil =>
      intro a h
      exact ⟨h, by simp⟩
  | cons x xs ih =>
      intro a h
      rw [List.foldl_cons] at h
      obtain ⟨h1, h2⟩ := ih _ h
      obtain ⟨ha, hx⟩ := F.fmax_eq_nan.mp h1
      refine ⟨ha, ?_⟩
      intro y hy
      rw [List.mem_cons] at hy
      rcases hy with rfl | hy
      · exact hx
      · exact h2 y hy

/-- C7 (amended): if any observation inside the queried window is NaN,
the returned summary has NaN in `sum` and `sum_squares` while `count`
still equals the window length; `min` (resp. `max`) is NaN only when
every windowed observation is NaN, because Rust's `f64::min`/`f64::max`
ignore NaN. -/
theorem c7_nan_poisoning (batches : List (List F)) (qs qe : Nat)
    (hqe : qe ≤ batches.flatten.length)
    (hmem : F.nan ∈ (batches.flatten.drop qs).take (qe - qs)) :
    ((batches.foldl SegmentTree.add_batch SegmentTree.new).query_range qs qe).sum = F.nan ∧
    ((batches.foldl SegmentTree.add_batch SegmentTree.new).query_range qs qe).sum_squares
      = F.nan ∧
    ((batches.foldl SegmentTree.add_batch SegmentTree.new).query_range qs qe).count =
      (((batches.flatten.drop qs).take (qe - qs)).length : ℤ) ∧
    (((batches.foldl SegmentTree.add_batch SegmentTree.new).query_range qs qe).min = F.nan →
      ∀ x ∈ (batches.flatten.drop qs).take (qe - qs), x = F.nan) ∧
    (((batches.foldl SegmentTree.add_batch SegmentTree.new).query_range qs qe).max = F.nan →
      ∀ x ∈ (batches.flatten.drop qs).take (qe - qs), x = F.nan) := by
  have hrep : Represents (batches.foldl SegmentTree.add_batch SegmentTree.new)
      batches.flatten := by
    have h := represents_foldl_add_batch batches SegmentTree.new [] represents_new
    simpa using h
  have hq : (batches.foldl SegmentTree.add_batch SegmentTree.new).query_range qs qe =
      ((batches.flatten.drop qs).take (qe - qs)).foldl
        (fun a x => NodeData.merge a (NodeData.new x)) NodeData.zero := by
    rw [query_range_eq hrep]
    rw [show min (batches.foldl SegmentTree.add_batch SegmentTree.new).size qe = qe from by
      have h := hrep.hle
      omega]
    exact windowFold_eq_fold hrep qs qe hqe
  rcases hT : (batches.flatten.drop qs).take (qe - qs) with _ | ⟨v, vs⟩
  · rw [hT] at hmem
    simp at hmem
  · rw [hT] at hmem hq
    rw [hq, fold_new_cons]
    rw [List.mem_cons] at hmem
    have hnan : v = F.nan ∨ F.nan ∈ vs := by
      rcases hmem with h | h
      · exact Or.inl h.symm
      · exact Or.inr h
    refine ⟨foldl_add_nan vs v hnan, ?_, by simp; omega, ?_, ?_⟩
    · apply foldl_addsq_nan vs (F.mul v v)
      rcases hnan with rfl | h
      · exact Or.inl F.mul_nan_self
      · exact Or.inr h
    · intro hmin y hy
      obtain ⟨h1, h2⟩ := foldl_fmin_nan vs v hmin
      rw [List.mem_cons] at hy
      rcases hy with rfl | hy
      · exact h1
      · exact h2 y hy
    · intro hmax y hy
      obtain ⟨h1, h2⟩ := foldl_fmax_nan vs v hmax
      rw [List.mem_cons] at hy
      rcases hy with rfl | hy
      · exact h1
      · exact h2 y hy

/-- Witness for C7's amended claim: the window `[1, NaN, 3]` yields a
NaN `sum`. -/
theorem c7_nan_poisoning_witness :
    (3 : Nat) ≤ ([[F.fin 1, F.nan, F.fin 3]] : List (List F)).flatten.length ∧
    F.nan ∈ ((([[F.fin 1, F.nan, F.fin 3]] : List (List F)).flatten.drop 0).take (3 - 0)) ∧
    (([[F.fin 1, F.nan, F.fin 3]].foldl SegmentTree.add_batch SegmentTree.new).query_range
        0 3).sum = F.nan :=
  ⟨by decide, by decide,
   (c7_nan_poisoning [[F.fin 1, F.nan, F.fin 3]] 0 3 (by decide) (by decide)).1⟩

/-! ### C6: large k -/

/-- C6 (counterexample): at `k = 64` after a single appended
observation, `10usize.pow(64)` wraps to 0, the window becomes empty and
the reply is the zeroed `Stats` — not the whole-stream clamp, whose
reply differs from the zeroed one. -/
theorem c6_counterexample :
    getStats (SegmentTree.new.add_batch [F.fin 1]) 64 = Stats.zeroed ∧
    statsFromWindow (SegmentTree.new.add_batch [F.fin 1]) 0
      (SegmentTree.new.add_batch [F.fin 1]).current_position ≠ Stats.zeroed := by
  have hrep1 : Represents (SegmentTree.new.add_batch [F.fin 1]) [F.fin 1] := by
    have h := represents_add_batch represents_new [F.fin 1]
    simpa using h
  have hcp : (SegmentTree.new.add_batch [F.fin 1]).current_position = 1 := by
    rw [add_batch_cp]
    rfl
  constructor
  · rw [getStats, hcp, show wpow10 64 = 0 from by decide, Nat.sub_zero, statsFromWindow]
    have hq : (SegmentTree.new.add_batch [F.fin 1]).query_range 1 1 = NodeData.zero := by
      rw [SegmentTree.query_range, SegmentTree.query_internal]
      exact queryAux_empty _ _ _ _ _ _
    rw [hq]
    rfl
  · rw [hcp]
    have hq0 : (SegmentTree.new.add_batch [F.fin 1]).query_range 0 1 =
        { min := F.fin 1, max := F.fin 1, sum := F.fin 1, sum_squares := F.fin 1, count := 1,
          last := F.fin 1 } := by
      rw [query_range_eq hrep1 0 1]
      rw [show min (SegmentTree.new.add_batch [F.fin 1]).size 1 = 1 from by
        have h := hrep1.hle
        simp at h ⊢
        omega]
      rw [windowFold_eq_fold hrep1 0 1 (by simp)]
      norm_num [NodeData.merge, NodeData.new, F.add, F.fmin, F.fmax, F.mul, NodeData.zero]
    rw [statsFromWindow, hq0]
    norm_num [Stats.zeroed, F.div, F.ofInt, F.sub, F.mul, F.add, F.neg]

/-- C6 (amended): when `10^k` is machine-representable (`k ≤ 19`) and
at least the position, `GetStats` behaves exactly as the whole-stream
window `[0, position)`; under release-mode wrapping semantics, for
every `k ≥ 64` the computed window size `10^k mod 2^64` is 0, the
window is empty and the reply is the zeroed `Stats`. -/
theorem c6_large_k (t : SegmentTree) (k : Nat) :
    (k ≤ 19 → t.current_position ≤ 10 ^ k →
      getStats t k = statsFromWindow t 0 t.current_position) ∧
    (64 ≤ k → getStats t k = Stats.zeroed) := by
  constructor
  · intro hk hcp
    rw [getStats]
    have h1 : wpow10 k = 10 ^ k := by
      rw [wpow10]
      apply Nat.mod_eq_of_lt
      calc (10 : ℕ) ^ k ≤ 10 ^ 19 := Nat.pow_le_pow_right (by norm_num) hk
      _ < 2 ^ 64 := by norm_num
    rw [h1, Nat.sub_eq_zero_of_le hcp]
  · intro hk
    obtain ⟨j, rfl⟩ : ∃ j, k = 64 + j := ⟨k - 64, by omega⟩
    have h0 : wpow10 (64 + j) = 0 := by
      rw [wpow10]
      have h : (10 : ℕ) ^ (64 + j) = 2 ^ 64 * (5 ^ (64 + j) * 2 ^ j) := by
        rw [show (10 : ℕ) = 2 * 5 from rfl, mul_pow, pow_add]
        ring
      rw [h, Nat.mul_mod_right]
    rw [getStats, h0, Nat.sub_zero, statsFromWindow]
    have hq : t.query_range t.current_position t.current_position = NodeData.zero := by
      rw [SegmentTree.query_range, SegmentTree.query_internal]
      exact queryAux_empty _ _ _ _ _ _
    rw [hq]
    rfl

/-- Witness for C6's amended claim at a one-observation stream:
`k = 1` behaves as the whole stream, `k = 64` yields the zeroed
reply. -/
theorem c6_large_k_witness :
    (1 : Nat) ≤ 19 ∧
    (SegmentTree.new.add_batch [F.fin 1]).current_position ≤ 10 ^ 1 ∧
    getStats (SegmentTree.new.add_batch [F.fin 1]) 1 =
      statsFromWindow (SegmentTree.new.add_batch [F.fin 1]) 0
        (SegmentTree.new.add_batch [F.fin 1]).current_position ∧
    getStats (SegmentTree.new.add_batch [F.fin 1]) 64 = Stats.zeroed :=
  ⟨by decide, by decide,
   (c6_large_k (SegmentTree.new.add_batch [F.fin 1]) 1).1 (by decide) (by decide),
   (c6_large_k (SegmentTree.new.add_batch [F.fin 1]) 64).2 (by decide)⟩

set_option maxRecDepth 4000

/-- C10 (evaluation at the failing input): on the stream `[1,2,3,4,5]`
and query range `[0,5)`, the `main.rs` tree answers
`(min 4, max 5, sum 9, sum_squares 41)` while the `segment.rs` tree
answers `(1, 5, 15, 55)` — the `main.rs` implementation writes leaves
at `current_size + i` with no leaf-region offset and recalculates
parents over `1..current_size` before updating it, so after its first
batch no parent is rebuilt and queries read stale identity nodes.  The
two implementations are not equivalent; `segment.rs` (whose answer is
the naive reduction, matching its own unit tests) is the correct
one. -/
theorem c10_divergence :
    (MTree.new.batch_update [F.fin 1, F.fin 2, F.fin 3, F.fin 4, F.fin 5]).query 0 5 =
      (F.fin 4, F.fin 5, F.fin 9, F.fin 41) ∧
    (SegmentTree.new.add_batch [F.fin 1, F.fin 2, F.fin 3, F.fin 4, F.fin 5]).query_range 0 5 =
      { min := F.fin 1, max := F.fin 5, sum := F.fin 15, sum_squares := F.fin 55, count := 5,
        last := F.fin 5 } ∧
    ((F.fin 4 : F), (F.fin 5 : F), (F.fin 9 : F), (F.fin 41 : F)) ≠
      ((F.fin 1 : F), (F.fin 5 : F), (F.fin 15 : F), (F.fin 55 : F)) := by
  refine ⟨?_, query5, ?_⟩
  · norm_num [MTree.batch_update, MTree.new, MTree.resize, MTree.query, resizeList, nextPow2,
      nextPow2Aux, MTree.writeLeaves4, MTree.mrebuildFrom, MTree.mqueryAux, merge4, id4,
      F.fmin, F.fmax, F.add, F.mul, List.replicate, min_def, max_def]
  · intro h
    rw [Prod.ext_iff] at h
    exact absurd (congrArg (fun q => match q with | F.fin x => x | _ => 0) h.1) (by norm_num)

/-! ### C8: the actor fabric -/

theorem findW_mem {ws : List (String × Worker)} {s : String} {w : Worker}
    (h : findW ws s = some w) : (s, w) ∈ ws := by
  induction ws with
  | nil => simp [findW] at h
  | cons p rest ih =>
      obtain ⟨a, w2⟩ := p
      rw [findW] at h
      by_cases ha : a = s
      · rw [if_pos ha] at h
        subst ha
        injection h with h2
        subst h2
        exact List.mem_cons_self _ _
      · rw [if_neg ha] at h
        exact List.mem_cons_of_mem _ (ih h)

theorem findW_dispatchOne_same (ws : List (String × Worker)) (s : String) (c : Cmd) :
    findW (dispatchOne ws s c) s = some
      (match findW ws s with
        | some w => { w with inbox := w.inbox ++ [c] }
        | none => ⟨SegmentTree.new, [c], []⟩) := by
  induction ws with
  | nil => simp [dispatchOne, findW]
  | cons p rest ih =>
      obtain ⟨a, w⟩ := p
      by_cases ha : a = s
      · simp [dispatchOne, findW, ha]
      · simp [dispatchOne, findW, ha, ih]

theorem findW_dispatchOne_ne (ws : List (String × Worker)) (s s2 : String) (c : Cmd)
    (h : s ≠ s2) : findW (dispatchOne ws s c) s2 = findW ws s2 := by
  induction ws with
  | nil => simp [dispatchOne, findW, h]
  | cons p rest ih =>
      obtain ⟨a, w⟩ := p
      by_cases ha : a = s
      · simp [dispatchOne, findW, ha, h]
      · by_cases ha2 : a = s2 <;>
          simp [dispatchOne, findW, ha, ha2, ih, h, Ne.symm h]

theorem findW_workOne_ne (ws : List (String × Worker)) (s s2 : String) (h : s ≠ s2) :
    findW (workOne ws s) s2 = findW ws s2 := by
  induction ws with
  | nil => simp [workOne, findW]
  | cons p rest ih =>
      obtain ⟨a, w⟩ := p
      by_cases ha : a = s
      · rcases hbox : w.inbox with _ | ⟨c, cs⟩ <;>
          simp [workOne, findW, ha, hbox, h, Ne.symm h]
      · by_cases ha2 : a = s2 <;> simp [workOne, findW, ha, ha2, ih, h, Ne.symm h]

theorem findW_workOne_same (ws : List (String × Worker)) (s : String) :
    findW (workOne ws s) s = match findW ws s with
      | none => none
      | some w =>
          match w.inbox with
          | [] => some w
          | c :: cs => some ⟨(applyCmd w.tree c).1, cs, w.replies ++ [(applyCmd w.tree c).2]⟩ := by
  induction ws with
  | nil => simp [workOne, findW]
  | cons p rest ih =>
      obtain ⟨a, w⟩ := p
      by_cases ha : a = s
      · rcases hbox : w.inbox with _ | ⟨c, cs⟩ <;> simp [workOne, findW, ha, hbox]
      · simp [workOne, findW, ha, ih]

theorem cmdsFor_head_eq (a : String) (c : Cmd) (rest : List (String × Cmd)) :
    cmdsFor ((a, c) :: rest) a = c :: cmdsFor rest a := by
  rw [cmdsFor, cmdsFor, List.filter_cons]
  simp

theorem cmdsFor_head_ne (a : String) (c : Cmd) (rest : List (String × Cmd)) (s : String)
    (h : a ≠ s) : cmdsFor ((a, c) :: rest) s = cmdsFor rest s := by
  rw [cmdsFor, cmdsFor, List.filter_cons]
  simp [h]

theorem cmdsFor_nil (s : String) : cmdsFor [] s = [] := rfl

theorem serialRun_snoc (cmds : List Cmd) (c : Cmd) :
    serialRun (cmds ++ [c]) =
      ((applyCmd (serialRun cmds).1 c).1,
        (serialRun cmds).2 ++ [(applyCmd (serialRun cmds).1 c).2]) := by
  simp only [serialRun, List.foldl_append, List.foldl_cons, List.foldl_nil]

theorem sysInv_init (envs : List (String × Cmd)) : SysInv envs ⟨envs, []⟩ := by
  intro s
  exact ⟨[], by simp [inboxOf, findW, serialRun],
    by simp [repliesOf, findW, serialRun], by simp [treeOf, findW, serialRun]⟩

theorem sysInv_step (envs : List (String × Cmd)) (st : SysState) (ch : Choice)
    (h : SysInv envs st) : SysInv envs (sysStep st ch) := by
  cases ch with
  | disp =>
      rcases hp : st.pending with _ | ⟨⟨a, c⟩, rest⟩
      · simpa [sysStep, hp] using h
      · simp only [sysStep, hp]
        intro s
        obtain ⟨done, h1, h2, h3⟩ := h s
        rw [hp] at h1
        by_cases hs : a = s
        · subst hs
          rw [cmdsFor_head_eq] at h1
          refine ⟨done, ?_, ?_, ?_⟩
          · have hib : inboxOf ⟨rest, dispatchOne st.workers a c⟩ a = inboxOf st a ++ [c] := by
              rw [inboxOf, inboxOf, findW_dispatchOne_same]
              rcases hf : findW st.workers a with _ | w <;> simp [hf]
            rw [hib, h1]
            simp
          · rw [repliesOf, findW_dispatchOne_same]
            rw [repliesOf] at h2
            rcases hf : findW st.workers a with _ | w <;> simp [hf] <;> rw [hf] at h2 <;>
              simpa using h2
          · rw [treeOf, findW_dispatchOne_same]
            rw [treeOf] at h3
            rcases hf : findW st.workers a with _ | w <;> simp [hf] <;> rw [hf] at h3 <;>
              simpa using h3
        · rw [cmdsFor_head_ne _ _ _ _ hs] at h1
          refine ⟨done, ?_, ?_, ?_⟩
          · rw [inboxOf, findW_dispatchOne_ne _ _ _ _ hs]
            rw [inboxOf] at h1
            exact h1
          · rw [repliesOf, findW_dispatchOne_ne _ _ _ _ hs]
            rw [repliesOf] at h2
            exact h2
          · rw [treeOf, findW_dispatchOne_ne _ _ _ _ hs]
            rw [treeOf] at h3
            exact h3
  | work σ =>
      simp only [sysStep]
      intro s
      obtain ⟨done, h1, h2, h3⟩ := h s
      by_cases hs : σ = s
      · subst hs
        rcases hf : findW st.workers σ with _ | w
        · have hW : findW (workOne st.workers σ) σ = none := by
            rw [findW_workOne_same, hf]
          refine ⟨done, ?_, ?_, ?_⟩
          · have hib : inboxOf ⟨st.pending, workOne st.workers σ⟩ σ = inboxOf st σ := by
              simp [inboxOf, hW, hf]
            rw [hib]
            exact h1
          · have hrep : repliesOf ⟨st.pending, workOne st.workers σ⟩ σ = repliesOf st σ := by
              simp [repliesOf, hW, hf]
            rw [hrep]
            exact h2
          · have htr : treeOf ⟨st.pending, workOne st.workers σ⟩ σ = treeOf st σ := by
              simp [treeOf, hW, hf]
            rw [htr]
            exact h3
        · rcases hbox : w.inbox with _ | ⟨c, cs⟩
          · have hW : findW (workOne st.workers σ) σ = some w := by
              rw [findW_workOne_same, hf]
              simp [hbox]
            refine ⟨done, ?_, ?_, ?_⟩
            · have hib : inboxOf ⟨st.pending, workOne st.workers σ⟩ σ = inboxOf st σ := by
                simp [inboxOf, hW, hf]
              rw [hib]
              exact h1
            · have hrep : repliesOf ⟨st.pending, workOne st.workers σ⟩ σ = repliesOf st σ := by
                simp [repliesOf, hW, hf]
              rw [hrep]
              exact h2
            · have htr : treeOf ⟨st.pending, workOne st.workers σ⟩ σ = treeOf st σ := by
                simp [treeOf, hW, hf]
              rw [htr]
              exact h3
          · have hW : findW (workOne st.workers σ) σ =
                some ⟨(applyCmd w.tree c).1, cs, w.replies ++ [(applyCmd w.tree c).2]⟩ := by
              rw [findW_workOne_same, hf]
              simp [hbox]
            have hwrep : repliesOf st σ = w.replies := by simp [repliesOf, hf]
            have hwtr : treeOf st σ = w.tree := by simp [treeOf, hf]
            simp only [inboxOf, hf] at h1
            rw [hbox] at h1
            rw [hwrep] at h2
            rw [hwtr] at h3
            refine ⟨done ++ [c], ?_, ?_, ?_⟩
            · have hib : inboxOf ⟨st.pending, workOne st.workers σ⟩ σ = cs := by
                simp [inboxOf, hW]
              rw [hib, h1]
              simp
            · have hrep : repliesOf ⟨st.pending, workOne st.workers σ⟩ σ =
                  w.replies ++ [(applyCmd w.tree c).2] := by
                simp [repliesOf, hW]
              rw [hrep, serialRun_snoc, ← h2, ← h3]
            · have htr : treeOf ⟨st.pending, workOne st.workers σ⟩ σ =
                  (applyCmd w.tree c).1 := by
                simp [treeOf, hW]
              rw [htr, serialRun_snoc, ← h3]
      · have hW : findW (workOne st.workers σ) s = findW st.workers s :=
          findW_workOne_ne _ _ _ hs
        refine ⟨done, ?_, ?_, ?_⟩
        · rw [inboxOf, hW]
          rw [inboxOf] at h1
          exact h1
        · rw [repliesOf, hW]
          rw [repliesOf] at h2
          exact h2
        · rw [treeOf, hW]
          rw [treeOf] at h3
          exact h3

theorem sysInv_run (envs : List (String × Cmd)) (sched : List Choice) :
    SysInv envs (sysRun envs sched) := by
  rw [sysRun]
  have hgen : ∀ (sch : List Choice) (st : SysState), SysInv envs st →
      SysInv envs (sch.foldl sysStep st) := by
    intro sch
    induction sch with
    | nil => intro st hst; exact hst
    | cons chh rest ih => intro st hst; exact ih _ (sysInv_step envs st chh hst)
  exact hgen sched _ (sysInv_init envs)

theorem drained_inboxOf {st : SysState} (h : drained st) (s : String) : inboxOf st s = [] := by
  rw [inboxOf]
  rcases hf : findW st.workers s with _ | w
  · rfl
  · exact h.2 (s, w) (findW_mem hf)

/-- C8: under every schedule that fully drains the system, the replies
a symbol's worker produced are exactly the serial execution of that
symbol's commands in submission order (and likewise its aggregator
state); consequently the replies to one symbol depend only on that
symbol's commands and their order, not on the other symbols'
envelopes or the interleaving. -/
theorem c8_per_symbol_isolation (envs envs2 : List (String × Cmd))
    (sched sched2 : List Choice) (s : String)
    (h1 : drained (sysRun envs sched)) (h2 : drained (sysRun envs2 sched2))
    (heq : cmdsFor envs s = cmdsFor envs2 s) :
    repliesOf (sysRun envs sched) s = (serialRun (cmdsFor envs s)).2 ∧
    treeOf (sysRun envs sched) s = (serialRun (cmdsFor envs s)).1 ∧
    repliesOf (sysRun envs sched) s = repliesOf (sysRun envs2 sched2) s := by
  have key : ∀ (e : List (String × Cmd)) (sch : List Choice), drained (sysRun e sch) →
      repliesOf (sysRun e sch) s = (serialRun (cmdsFor e s)).2 ∧
      treeOf (sysRun e sch) s = (serialRun (cmdsFor e s)).1 := by
    intro e sch hd
    obtain ⟨done, hh1, hh2, hh3⟩ := sysInv_run e sch s
    rw [drained_inboxOf hd s, hd.1, cmdsFor_nil] at hh1
    simp at hh1
    rw [hh1]
    exact ⟨hh2, hh3⟩
  obtain ⟨k1, k2⟩ := key envs sched h1
  obtain ⟨k3, _⟩ := key envs2 sched2 h2
  exact ⟨k1, k2, by rw [k1, k3, heq]⟩

/-- Witness for C8: a concrete three-envelope run over symbols "A" and
"B", and a run of only A's envelopes, drain and agree on A's replies. -/
theorem c8_per_symbol_isolation_witness :
    drained (sysRun [("A", Cmd.addBatch []), ("B", Cmd.addBatch []), ("A", Cmd.getStatsCmd 0)]
      [Choice.disp, Choice.disp, Choice.disp, Choice.work "A", Choice.work "B",
        Choice.work "A"]) ∧
    drained (sysRun [("A", Cmd.addBatch []), ("A", Cmd.getStatsCmd 0)]
      [Choice.disp, Choice.disp, Choice.work "A", Choice.work "A"]) ∧
    cmdsFor [("A", Cmd.addBatch []), ("B", Cmd.addBatch []), ("A", Cmd.getStatsCmd 0)] "A" =
      cmdsFor [("A", Cmd.addBatch []), ("A", Cmd.getStatsCmd 0)] "A" ∧
    repliesOf (sysRun [("A", Cmd.addBatch []), ("B", Cmd.addBatch []), ("A", Cmd.getStatsCmd 0)]
        [Choice.disp, Choice.disp, Choice.disp, Choice.work "A", Choice.work "B",
          Choice.work "A"]) "A" =
      repliesOf (sysRun [("A", Cmd.addBatch []), ("A", Cmd.getStatsCmd 0)]
        [Choice.disp, Choice.disp, Choice.work "A", Choice.work "A"]) "A" :=
  ⟨by decide, by decide, by decide,
   (c8_per_symbol_isolation
     [("A", Cmd.addBatch []), ("B", Cmd.addBatch []), ("A", Cmd.getStatsCmd 0)]
     [("A", Cmd.addBatch []), ("A", Cmd.getStatsCmd 0)]
     [Choice.disp, Choice.disp, Choice.disp, Choice.work "A", Choice.work "B", Choice.work "A"]
     [Choice.disp, Choice.disp, Choice.work "A", Choice.work "A"]
     "A" (by decide) (by decide) (by decide)).2.2⟩
